import Mathlib

/-!
Verification of src/src/cosalib/cmdlib.py (coreos-assembler command helpers).

The module is shallowly embedded: file contents and Python strings are
modelled as lists of characters, the filesystem as a partial map from paths
to contents, subprocess exit statuses as natural numbers, and a raised
Python exception (SystemExit, AssertionError, TypeError, CalledProcessError)
as the error branch of an Except value.  Python floating-point values are
outside the model; everything else each claim touches is translated from the
source function it names.
-/

/-! ### Decimal representation (Python str(n) for a non-negative int) -/

/-- Decimal digit characters of n, most significant first, prepended to acc.
The first argument is fuel bounding the recursion depth; any fuel at least
the number of digits of n is enough. -/
def natDecAux : Nat → Nat → List Char → List Char
  | 0, _, acc => acc
  | _ + 1, 0, acc => acc
  | fuel + 1, n, acc => natDecAux fuel (n / 10) (Char.ofNat (48 + n % 10) :: acc)

/-- Python str(n) for a natural number: decimal, no sign, no leading zeros. -/
def natDec (n : Nat) : List Char :=
  if n = 0 then ['0'] else natDecAux n n []

/-- Python str(n) for an int: a leading minus sign for negative values. -/
def intDec (n : Int) : List Char :=
  if n < 0 then '-' :: natDec n.natAbs else natDec n.toNat

/-- strftime-style zero padding of a decimal number to width w. -/
def padNum (w n : Nat) : List Char :=
  List.replicate (w - (natDec n).length) '0' ++ natDec n

/-! ### disk_ignition_version (cmdlib.py lines 172-177) -/

/-- Python posixpath.basename: the part of the path after the final slash. -/
def basename (p : List Char) : List Char :=
  p.foldl (fun acc c => if c = '/' then [] else acc ++ [c]) []

/-- Python str.startswith with a tuple of alternatives: true when some
element of pfxs is a prefix of s. -/
def startswithAny (pfxs : List (List Char)) (s : List Char) : Bool :=
  pfxs.any (fun q => q.isPrefixOf s)

/-- The three basename stems that select the legacy Ignition spec. -/
def rhcosStems : List (List Char) :=
  ["rhcos-41".toList, "rhcos-42".toList, "rhcos-43".toList]

/-- disk_ignition_version from cmdlib.py: images whose basename starts with
rhcos-41, rhcos-42 or rhcos-43 report Ignition spec 2.2.0, all others 3.0.0. -/
def disk_ignition_version (path : List Char) : List Char :=
  let bn := basename path
  if startswithAny rhcosStems bn then "2.2.0".toList else "3.0.0".toList

/-! ### get_basearch (cmdlib.py lines 201-206) -/

/-- One call of get_basearch.  The first component of the result is the
returned string, the second the function attribute get_basearch.saved after
the call (Option.none models the attribute not existing, so that reading it
raises AttributeError), the third how many times this call queried the
external RpmOstree.get_basearch facility.  plat is the value that facility
returns for this process. -/
def get_basearch (saved : Option (List Char)) (plat : List Char) :
    List Char × Option (List Char) × Nat :=
  match saved with
  | some v => (v, some v, 0)
  | none => (plat, some plat, 1)

/-- n successive calls of get_basearch in one process: the list of returned
strings, the final memoized state and the total number of external queries. -/
def get_basearch_calls : Nat → Option (List Char) → List Char →
    List (List Char) × Option (List Char) × Nat
  | 0, saved, _ => ([], saved, 0)
  | n + 1, saved, plat =>
    let r := get_basearch saved plat
    let rs := get_basearch_calls n r.2.1 plat
    (r.1 :: rs.1, rs.2.1, r.2.2 + rs.2.2)

/-! ### rfc3339_time (cmdlib.py lines 135-150) -/

/-- A Python datetime as far as rfc3339_time inspects it: the six calendar
fields read by strftime and the result of the tzname() method (Option.none
for a naive datetime, which has no zone). -/
structure PyDatetime where
  year : Nat
  month : Nat
  day : Nat
  hour : Nat
  minute : Nat
  second : Nat
  tzn : Option (List Char)
deriving DecidableEq, Repr

/-- strftime of the format string used by rfc3339_time. -/
def strftimeRfc3339 (t : PyDatetime) : List Char :=
  padNum 4 t.year ++ '-' :: padNum 2 t.month ++ '-' :: padNum 2 t.day ++
    'T' :: padNum 2 t.hour ++ ':' :: padNum 2 t.minute ++ ':' :: padNum 2 t.second ++ ['Z']

/-- rfc3339_time from cmdlib.py.  now is what datetime.utcnow() would return
(a naive datetime holding the current UTC time); the argument t models the
optional parameter.  A failed assert raises AssertionError, modelled as the
error branch carrying the assertion message. -/
def rfc3339_time (now : PyDatetime) (t : Option PyDatetime) :
    Except (List Char) (List Char) :=
  match t with
  | none => .ok (strftimeRfc3339 now)
  | some t =>
    if t.tzn = some "UTC".toList then .ok (strftimeRfc3339 t)
    else .error "Timestamp must be in UTC format".toList

/-! ### run_verbose (cmdlib.py lines 39-64) and subprocess.list2cmdline -/

/-- The character loop of subprocess.list2cmdline for one argument: processes
the remaining characters given the pending run of backslashes (bs_buf) and
returns the emitted characters together with the backslash run pending at the
end of the argument. -/
def l2cChars : List Char → List Char → List Char × List Char
  | [], bs => ([], bs)
  | c :: rest, bs =>
    if c = '\\' then l2cChars rest (bs ++ [c])
    else if c = '"' then
      let tl := l2cChars rest []
      (List.replicate (2 * bs.length) '\\' ++ '\\' :: '"' :: tl.1, tl.2)
    else
      let tl := l2cChars rest []
      (bs ++ c :: tl.1, tl.2)

/-- subprocess.list2cmdline's treatment of a single argument: quote it when
it contains a space or tab or is empty, doubling any trailing backslash run
before the closing quote. -/
def list2cmdlineArg (arg : List Char) : List Char :=
  let needquote := arg.contains ' ' || arg.contains '\t' || arg.isEmpty
  let body := l2cChars arg []
  (if needquote then ['"'] else []) ++ body.1 ++ body.2 ++
    (if needquote then body.2 ++ ['"'] else [])

/-- subprocess.list2cmdline: the arguments quoted and joined by single
spaces. -/
def list2cmdline (args : List (List Char)) : List Char :=
  List.intercalate [' '] (args.map list2cmdlineArg)

/-- The CompletedProcess value subprocess.run returns, restricted to the
field run_verbose's callers can observe here. -/
structure CompletedProcess where
  returncode : Nat
deriving DecidableEq, Repr

/-- The keyword arguments of run_verbose that steer control flow: check is
Option.none when the caller did not pass it (the function then inserts
check=True), and capture_output only redirects the two streams. -/
structure RunKwargs where
  chk : Option Bool
  capture_output : Bool
deriving DecidableEq, Repr

/-- run_verbose from cmdlib.py.  exitCode is the exit status of the spawned
process.  The first component is the list of lines printed to stdout before
the subprocess runs; the second is either the CompletedProcess or, when
subprocess.run raised CalledProcessError and fatal was called, the SystemExit
message (the error branch).  Python would raise IndexError on args[0] for an
empty argument list, also modelled as an error. -/
def run_verbose (args : List (List Char)) (kw : RunKwargs) (exitCode : Nat) :
    List (List Char) × Except (List Char) CompletedProcess :=
  let printed := ['+' :: ' ' :: list2cmdline args]
  let checkv := kw.chk.getD true
  if checkv && !(exitCode == 0) then
    match args with
    | [] => (printed, .error "IndexError".toList)
    | a :: _ => (printed, .error ("Error running command ".toList ++ a))
  else (printed, .ok ⟨exitCode⟩)

/-! ### import_ostree_commit (cmdlib.py lines 180-198) -/

/-- The repository state import_ostree_commit manipulates, the spec's state
machine over one commit reference: whether the repo directory has been
initialized, whether the commit object is present, and whether the
state/<commit>.commitpartial marker file exists. -/
structure OstreeRepo where
  initialized : Bool
  hasCommit : Bool
  hasMarker : Bool
deriving DecidableEq, Repr

/-- Failure injection for the spawned subprocesses: whether ostree init, the
ostree show probe (spuriously, despite the commit being present), tar -xf,
or ostree pull-local exits with a non-zero status. -/
structure ImportEnv where
  initFails : Bool
  probeFails : Bool
  extractFails : Bool
  pullFails : Bool
deriving DecidableEq, Repr

/-- The subprocesses import_ostree_commit can spawn, in source order: ostree
init, the silenced ostree show existence probe, tar extraction, ostree
pull-local. -/
inductive Eff
  | init
  | probe
  | extract
  | pull
deriving DecidableEq, Repr

/-- import_ostree_commit from cmdlib.py.  The control flow is the source's:
ostree init runs first through check_call (CalledProcessError is fatal);
ostree show runs through subprocess.call with both streams suppressed, so
its exit status is only compared against 0; when the probe exits 0, no
marker file exists and force is false, the function returns at once;
otherwise tar -xf and ostree pull-local run through check_call inside a
temporary directory created in the repo.  The external ostree tool is
modelled from the spec: init is idempotent, show exits 0 exactly when the
commit object is present, and a successful pull-local leaves the commit
materialized with no partial marker.  Returns the repository state after the
call, the subprocesses spawned, and ok or the propagated fatal error. -/
def import_ostree_commit (env : ImportEnv) (r : OstreeRepo) (force : Bool) :
    OstreeRepo × List Eff × Except Unit Unit :=
  if env.initFails then (r, [.init], .error ())
  else
    let r1 : OstreeRepo := { r with initialized := true }
    let showExit : Nat := if env.probeFails then 1 else if r1.hasCommit then 0 else 1
    if showExit == 0 && !r1.hasMarker && !force then
      (r1, [.init, .probe], .ok ())
    else if env.extractFails then (r1, [.init, .probe, .extract], .error ())
    else if env.pullFails then (r1, [.init, .probe, .extract, .pull], .error ())
    else ({ r1 with hasCommit := true, hasMarker := false },
      [.init, .probe, .extract, .pull], .ok ())

/-- The environment in which every spawned subprocess exits 0. -/
def allOkEnv : ImportEnv := ⟨false, false, false, false⟩

/-! ### sha256sum_file (cmdlib.py lines 98-111) and SHA-256 (FIPS 180-4) -/

/-- Splitting a list into consecutive chunks of n elements (the last chunk
shorter); the first argument is fuel, sufficient whenever it reaches the
list length and n is positive. -/
def chunksOfAux (n : Nat) : Nat → List α → List (List α)
  | 0, _ => []
  | _, [] => []
  | fuel + 1, x :: xs => (x :: xs).take n :: chunksOfAux n fuel ((x :: xs).drop n)

/-- The successive chunks a loop of f.read(n) calls returns: n-element
chunks until the list is exhausted. -/
def chunksOf (n : Nat) (l : List α) : List (List α) :=
  chunksOfAux n l.length l

/-- Truncation to a 32-bit word. -/
def w32 (n : Nat) : Nat := n % 4294967296

/-- 32-bit rotate right. -/
def rotr32 (n x : Nat) : Nat := w32 ((x >>> n) ||| (x <<< (32 - n)))

/-- SHA-256 big sigma 0. -/
def bsig0 (x : Nat) : Nat := rotr32 2 x ^^^ rotr32 13 x ^^^ rotr32 22 x

/-- SHA-256 big sigma 1. -/
def bsig1 (x : Nat) : Nat := rotr32 6 x ^^^ rotr32 11 x ^^^ rotr32 25 x

/-- SHA-256 small sigma 0. -/
def ssig0 (x : Nat) : Nat := rotr32 7 x ^^^ rotr32 18 x ^^^ (x >>> 3)

/-- SHA-256 small sigma 1. -/
def ssig1 (x : Nat) : Nat := rotr32 17 x ^^^ rotr32 19 x ^^^ (x >>> 10)

/-- SHA-256 choose function. -/
def chFn (x y z : Nat) : Nat := (x &&& y) ^^^ ((x ^^^ 4294967295) &&& z)

/-- SHA-256 majority function. -/
def majFn (x y z : Nat) : Nat := (x &&& y) ^^^ (x &&& z) ^^^ (y &&& z)

/-- The 64 SHA-256 round constants. -/
def sha256K : List Nat :=
  [1116352408, 1899447441, 3049323471, 3921009573, 961987163,
   1508970993, 2453635748, 2870763221, 3624381080, 310598401,
   607225278, 1426881987, 1925078388, 2162078206, 2614888103,
   3248222580, 3835390401, 4022224774, 264347078, 604807628,
   770255983, 1249150122, 1555081692, 1996064986, 2554220882,
   2821834349, 2952996808, 3210313671, 3336571891, 3584528711,
   113926993, 338241895, 666307205, 773529912, 1294757372,
   1396182291, 1695183700, 1986661051, 2177026350, 2456956037,
   2730485921, 2820302411, 3259730800, 3345764771, 3516065817,
   3600352804, 4094571909, 275423344, 430227734, 506948616,
   659060556, 883997877, 958139571, 1322822218, 1537002063,
   1747873779, 1955562222, 2024104815, 2227730452, 2361852424,
   2428436474, 2756734187, 3204031479, 3329325298]

/-- The SHA-256 initial hash value. -/
def sha256H0 : List Nat :=
  [1779033703, 3144134277, 1013904242, 2773480762,
   1359893119, 2600822924, 528734635, 1541459225]

/-- Big-endian assembly of consecutive groups of four bytes into words. -/
def words32 : List Nat → List Nat
  | b0 :: b1 :: b2 :: b3 :: rest =>
    (b0 * 16777216 + b1 * 65536 + b2 * 256 + b3) :: words32 rest
  | _ => []

/-- Message-schedule extension: appends the next n words. -/
def scheduleAux : Nat → List Nat → List Nat
  | 0, ws => ws
  | n + 1, ws =>
    let t := ws.length
    scheduleAux n (ws ++ [w32 (ssig1 (ws.getD (t - 2) 0) + ws.getD (t - 7) 0 +
      ssig0 (ws.getD (t - 15) 0) + ws.getD (t - 16) 0)])

/-- The SHA-256 working variables a through h. -/
structure Sha256Vars where
  va : Nat
  vb : Nat
  vc : Nat
  vd : Nat
  ve : Nat
  vf : Nat
  vg : Nat
  vh : Nat
deriving DecidableEq, Repr

/-- One SHA-256 round with round constant plus schedule word kw. -/
def sha256Round (s : Sha256Vars) (kw : Nat) : Sha256Vars :=
  let t1 := s.vh + bsig1 s.ve + chFn s.ve s.vf s.vg + kw
  let t2 := bsig0 s.va + majFn s.va s.vb s.vc
  ⟨w32 (t1 + t2), s.va, s.vb, s.vc, w32 (s.vd + t1), s.ve, s.vf, s.vg⟩

/-- Compression of one 64-byte block into the running hash value. -/
def sha256Compress (H : List Nat) (block : List Nat) : List Nat :=
  let ws := scheduleAux 48 (words32 block)
  let kws := (sha256K.zip ws).map (fun p => w32 (p.1 + p.2))
  let s0 : Sha256Vars := ⟨H.getD 0 0, H.getD 1 0, H.getD 2 0, H.getD 3 0,
    H.getD 4 0, H.getD 5 0, H.getD 6 0, H.getD 7 0⟩
  let s := kws.foldl sha256Round s0
  [w32 (H.getD 0 0 + s.va), w32 (H.getD 1 0 + s.vb), w32 (H.getD 2 0 + s.vc),
   w32 (H.getD 3 0 + s.vd), w32 (H.getD 4 0 + s.ve), w32 (H.getD 5 0 + s.vf),
   w32 (H.getD 6 0 + s.vg), w32 (H.getD 7 0 + s.vh)]

/-- Big-endian 8-byte encoding of the message bit length. -/
def be8 (n : Nat) : List Nat :=
  [n >>> 56 % 256, n >>> 48 % 256, n >>> 40 % 256, n >>> 32 % 256,
   n >>> 24 % 256, n >>> 16 % 256, n >>> 8 % 256, n % 256]

/-- Big-endian 4-byte encoding of a hash word. -/
def be4 (n : Nat) : List Nat := [n >>> 24 % 256, n >>> 16 % 256, n >>> 8 % 256, n % 256]

/-- FIPS 180-4 padding: a 0x80 byte, zeros to 56 mod 64, and the bit length. -/
def sha256Pad (msg : List Nat) : List Nat :=
  msg ++ 128 :: List.replicate ((119 - msg.length % 64) % 64) 0 ++ be8 (8 * msg.length)

/-- SHA-256 of a byte list: the 32 digest bytes. -/
def sha256 (msg : List Nat) : List Nat :=
  ((chunksOf 64 (sha256Pad msg)).foldl sha256Compress sha256H0).flatMap be4

/-- Lowercase hex digit character for a value below 16. -/
def hexDigitChar (d : Nat) : Char :=
  Char.ofNat (if d < 10 then 48 + d else 87 + d)

/-- Two lowercase hex characters for one byte. -/
def hexByte (b : Nat) : List Char := [hexDigitChar (b / 16), hexDigitChar (b % 16)]

/-- hexdigest of a byte list: lowercase hex SHA-256. -/
def sha256hex (msg : List Nat) : List Char := (sha256 msg).flatMap hexByte

/-- sha256sum_file from cmdlib.py, with content the bytes of the file at the
given path: the file is read in fixed 131072-byte chunks until exhausted,
each chunk fed to the streaming hash object by h.update - whose documented
hashlib contract is that the accumulated bytes are the concatenation of all
updates - and the lowercase hexdigest of the accumulated bytes returned. -/
def sha256sum_file (content : List Nat) : List Char :=
  let fed := (chunksOf 131072 content).foldl (fun acc b => acc ++ b) ([] : List Nat)
  sha256hex fed

/-! ### Python values and json.dump (cmdlib.py write_json, lines 67-81) -/

/-- The Python values write_json's callers hand to json.dump, as far as this
module's claims reach: None, bool, int, str, list, tuple and dict.  Python
floats are outside the model, and strings are sequences of Unicode scalar
values (Python strings admit lone surrogates, which never survive a JSON
round trip anyway and have no Lean counterpart). -/
inductive PyVal where
  | pynull
  | pybool (b : Bool)
  | pyint (n : Int)
  | pystr (s : List Char)
  | pylist (xs : List PyVal)
  | pytuple (xs : List PyVal)
  | pydict (kvs : List (PyVal × PyVal))
deriving Repr

/-- Backslash-u escape of a 16-bit code unit, four lowercase hex digits, as
json.encoder emits it. -/
def uEscape (n : Nat) : List Char :=
  ['\\', 'u', hexDigitChar (n / 4096 % 16), hexDigitChar (n / 256 % 16),
   hexDigitChar (n / 16 % 16), hexDigitChar (n % 16)]

/-- Per-character escaping of json.encoder's ensure_ascii encoder: backslash
and quote escaped, the five control-character shortcuts, backslash-u escapes
for the remaining control characters and for everything beyond printable
ASCII, astral characters as a surrogate pair. -/
def escapeChar (c : Char) : List Char :=
  if c = '\\' then ['\\', '\\']
  else if c = '"' then ['\\', '"']
  else if c = Char.ofNat 8 then ['\\', 'b']
  else if c = '\t' then ['\\', 't']
  else if c = '\n' then ['\\', 'n']
  else if c = Char.ofNat 12 then ['\\', 'f']
  else if c = Char.ofNat 13 then ['\\', 'r']
  else if c.toNat < 32 then uEscape c.toNat
  else if c.toNat < 127 then [c]
  else if c.toNat < 65536 then uEscape c.toNat
  else
    uEscape (55296 + (c.toNat - 65536) / 1024) ++ uEscape (56320 + (c.toNat - 65536) % 1024)

/-- json.dump rendering of a Python str: double quotes around the escaped
characters. -/
def encodeString (s : List Char) : List Char :=
  '"' :: (s.flatMap escapeChar ++ ['"'])

/-- json.dump's treatment of a dict key that is not already a str
(_iterencode_dict): int, bool and None keys become their JSON scalar
spelling, a container key raises TypeError (Option.none). -/
def dumpKey : PyVal → Option (List Char)
  | .pystr s => some s
  | .pyint n => some (intDec n)
  | .pybool true => some "true".toList
  | .pybool false => some "false".toList
  | .pynull => some "null".toList
  | _ => none

/-- The newline plus four-spaces-per-level indentation json.dump(indent=4)
inserts before an element at the given nesting level. -/
def nlPad (lvl : Nat) : List Char := '\n' :: List.replicate (4 * lvl) ' '

mutual

/-- The characters json.dump(data, f, indent=4) writes for one value at the
given nesting level; Option.none is the TypeError raised for data json
cannot serialize (here: a dict whose key is a container).  Lists and tuples
both serialize as JSON arrays; empty containers print inline.  Translated
from json.encoder's _make_iterencode with indent='    ', item separator ','
and key separator ': '. -/
def emitVal : PyVal → Nat → Option (List Char)
  | .pynull, _ => some "null".toList
  | .pybool true, _ => some "true".toList
  | .pybool false, _ => some "false".toList
  | .pyint n, _ => some (intDec n)
  | .pystr s, _ => some (encodeString s)
  | .pylist [], _ => some "[]".toList
  | .pylist (x :: xs), lvl => do
    let items ← emitItems (x :: xs) (lvl + 1)
    pure ('[' :: (nlPad (lvl + 1) ++ items ++ nlPad lvl ++ [']']))
  | .pytuple [], _ => some "[]".toList
  | .pytuple (x :: xs), lvl => do
    let items ← emitItems (x :: xs) (lvl + 1)
    pure ('[' :: (nlPad (lvl + 1) ++ items ++ nlPad lvl ++ [']']))
  | .pydict [], _ => some "{}".toList
  | .pydict (kv :: kvs), lvl => do
    let items ← emitPairs (kv :: kvs) (lvl + 1)
    pure ('{' :: (nlPad (lvl + 1) ++ items ++ nlPad lvl ++ ['}']))

/-- The items of a nonempty JSON array, separated by a comma and the
newline-indent of their level. -/
def emitItems : List PyVal → Nat → Option (List Char)
  | [], _ => some []
  | [x], lvl => emitVal x lvl
  | x :: y :: xs, lvl => do
    let hd ← emitVal x lvl
    let tl ← emitItems (y :: xs) lvl
    pure (hd ++ ',' :: (nlPad lvl ++ tl))

/-- The key-value items of a nonempty JSON object: each key coerced by
dumpKey and quoted, then the key separator colon-space, then the value;
items separated like array items. -/
def emitPairs : List (PyVal × PyVal) → Nat → Option (List Char)
  | [], _ => some []
  | [(k, v)], lvl => do
    let ks ← dumpKey k
    let vs ← emitVal v lvl
    pure (encodeString ks ++ ':' :: ' ' :: vs)
  | (k, v) :: kv :: kvs, lvl => do
    let ks ← dumpKey k
    let vs ← emitVal v lvl
    let tl ← emitPairs (kv :: kvs) lvl
    pure (encodeString ks ++ ':' :: ' ' :: (vs ++ ',' :: (nlPad lvl ++ tl)))

end

/-- json.dumps(data, indent=4): the whole document, at nesting level 0. -/
def dumps (data : PyVal) : Option (List Char) := emitVal data 0

/-- Whether two dict keys are the same string key (all JSON object keys are
strings; non-string keys never compare equal here, and canonical below rules
them out anyway). -/
def sameKey : PyVal → PyVal → Bool
  | .pystr a, .pystr b => a == b
  | _, _ => false

/-- Whether the key occurs among the keys of the remaining pairs. -/
def keyMem (k : PyVal) : List (PyVal × PyVal) → Bool
  | [] => false
  | kv :: kvs => sameKey k kv.1 || keyMem k kvs

mutual

/-- The canonical Python values: those in the image of json.loads.  Dict
keys are strings and pairwise distinct (every Python dict has distinct
keys; distinctness of the coerced key strings is what a string-keyed dict
guarantees), tuples do not occur (json.loads builds lists), and every
nested value is canonical. -/
def canonical : PyVal → Bool
  | .pynull => true
  | .pybool _ => true
  | .pyint _ => true
  | .pystr _ => true
  | .pylist xs => canonicalList xs
  | .pytuple _ => false
  | .pydict kvs => canonicalPairs kvs

/-- Every element canonical. -/
def canonicalList : List PyVal → Bool
  | [] => true
  | x :: xs => canonical x && canonicalList xs

/-- Every key a string not repeated later, every value canonical. -/
def canonicalPairs : List (PyVal × PyVal) → Bool
  | [] => true
  | kv :: kvs =>
    (match kv.1 with | .pystr _ => true | _ => false) &&
      !keyMem kv.1 kvs && canonical kv.2 && canonicalPairs kvs

end

mutual

/-- Fuel sufficient for the JSON parser on the emitted text of a value: one
unit per parser call it triggers. -/
def pvFuel : PyVal → Nat
  | .pynull => 1
  | .pybool _ => 1
  | .pyint _ => 1
  | .pystr _ => 1
  | .pylist xs => 1 + pvFuelList xs
  | .pytuple xs => 1 + pvFuelList xs
  | .pydict kvs => 1 + pvFuelPairs kvs

/-- Fuel for an array item chain. -/
def pvFuelList : List PyVal → Nat
  | [] => 0
  | x :: xs => 1 + pvFuel x + pvFuelList xs

/-- Fuel for an object item chain. -/
def pvFuelPairs : List (PyVal × PyVal) → Nat
  | [] => 0
  | kv :: kvs => 1 + pvFuel kv.2 + pvFuelPairs kvs

end

/-! ### The filesystem, write_json and load_json (cmdlib.py lines 67-95) -/

/-- A filesystem: the contents of the file at each path, Option.none when no
file exists there. -/
structure FS where
  files : String → Option (List Char)

/-- Creating, overwriting or (with Option.none) removing one path. -/
def FS.put (fs : FS) (p : String) (c : Option (List Char)) : FS :=
  ⟨fun q => if q = p then c else fs.files q⟩

/-- The operating-system steps of write_json at which an OSError can be
injected: creating the temporary file, the buffered dump, fchmod, and the
final rename. -/
inductive WStep
  | create
  | dump
  | chmod
  | ren
deriving DecidableEq, Repr

/-- write_json from cmdlib.py.  tmp is the fresh name
tempfile.NamedTemporaryFile picks inside the directory of path (the caller
of this model supplies it; freshness makes it distinct from path); failAt
injects an OSError at the named step, and stub is whatever prefix of the
serialization the buffered dump had flushed when it failed.  The temp file
is created with delete=False and the function has no cleanup handler, so
whatever the temp file holds when an exception propagates stays on disk;
json.dump raises TypeError on unserializable data (dumps = Option.none); on
success os.rename atomically moves the temp file onto path. -/
def write_json (fs : FS) (p tmp : String) (data : PyVal)
    (failAt : Option WStep) (stub : List Char) : FS × Except Unit Unit :=
  if failAt = some WStep.create then (fs, .error ())
  else
    let fs1 := fs.put tmp (some [])
    match dumps data, failAt with
    | none, _ => (fs1.put tmp (some stub), .error ())
    | some _, some WStep.dump => (fs1.put tmp (some stub), .error ())
    | some out, failAt2 =>
      let fs2 := fs1.put tmp (some out)
      if failAt2 = some WStep.chmod then (fs2, .error ())
      else if failAt2 = some WStep.ren then (fs2, .error ())
      else ((fs2.put tmp none).put p (some out), .ok ())

/-! ### json.loads: the parser load_json applies to the file contents -/

/-- The four JSON whitespace characters json.loads skips. -/
def isWsChar (c : Char) : Bool :=
  c = ' ' || c = '\t' || c = '\n' || c = Char.ofNat 13

/-- Skipping leading whitespace. -/
def skipWs : List Char → List Char
  | [] => []
  | c :: r => if isWsChar c then skipWs r else c :: r

/-- Matching a literal: the remaining input after it, or Option.none. -/
def stripLit : List Char → List Char → Option (List Char)
  | [], s => some s
  | _ :: _, [] => none
  | c :: p, x :: s => if x = c then stripLit p s else none

/-- ASCII decimal digit test. -/
def isDigitChar (c : Char) : Bool := 48 ≤ c.toNat && c.toNat ≤ 57

/-- Whether the input does not begin with a digit (so that a number parsed
just before it is maximal). -/
def noLeadDigit : List Char → Bool
  | [] => true
  | c :: _ => !isDigitChar c

/-- The longest digit run at the front of the input, and what follows. -/
def takeDigits : List Char → List Char × List Char
  | [] => ([], [])
  | c :: r =>
    if isDigitChar c then
      let p := takeDigits r
      (c :: p.1, p.2)
    else ([], c :: r)

/-- Value of a big-endian digit-character run. -/
def digitsToNat (ds : List Char) : Nat :=
  ds.foldl (fun a c => 10 * a + (c.toNat - 48)) 0

/-- Python json's unsigned integer grammar 0|[1-9][0-9]*: a lone zero stops
at the first digit, anything else takes the maximal digit run.  Fractions
and exponents are float syntax, outside the model. -/
def parseUNum : List Char → Option (Nat × List Char)
  | [] => none
  | c :: r =>
    if c = '0' then some (0, r)
    else if isDigitChar c then
      let p := takeDigits (c :: r)
      some (digitsToNat p.1, p.2)
    else none

/-- Hex digit value, both cases accepted. -/
def hexVal (c : Char) : Option Nat :=
  if 48 ≤ c.toNat && c.toNat ≤ 57 then some (c.toNat - 48)
  else if 97 ≤ c.toNat && c.toNat ≤ 102 then some (c.toNat - 87)
  else if 65 ≤ c.toNat && c.toNat ≤ 70 then some (c.toNat - 55)
  else none

/-- Four hex digits after a backslash-u escape. -/
def parseHex4 : List Char → Option (Nat × List Char)
  | c1 :: c2 :: c3 :: c4 :: r => do
    let a ← hexVal c1
    let b ← hexVal c2
    let c ← hexVal c3
    let d ← hexVal c4
    pure (a * 4096 + b * 256 + c * 16 + d, r)
  | _ => none

/-- The second escape of a surrogate pair: a backslash-u low surrogate,
combined with the high surrogate into one astral character.  A lone
surrogate escape, which Python would turn into a lone-surrogate str element
with no Lean counterpart, is rejected; no theorem below feeds one in. -/
def parseLowSurrogate : List Char → Nat → Option (Char × List Char)
  | '\\' :: 'u' :: r4, hi => do
    let lo ← parseHex4 r4
    if 56320 ≤ lo.1 && lo.1 < 57344 then
      some (Char.ofNat (65536 + (hi - 55296) * 1024 + (lo.1 - 56320)), lo.2)
    else none
  | _, _ => none

/-- The escape table after a backslash inside a JSON string. -/
def parseEsc : List Char → Option (Char × List Char)
  | '"' :: r2 => some ('"', r2)
  | '\\' :: r2 => some ('\\', r2)
  | '/' :: r2 => some ('/', r2)
  | 'b' :: r2 => some (Char.ofNat 8, r2)
  | 'f' :: r2 => some (Char.ofNat 12, r2)
  | 'n' :: r2 => some ('\n', r2)
  | 'r' :: r2 => some (Char.ofNat 13, r2)
  | 't' :: r2 => some ('\t', r2)
  | 'u' :: r2 => do
    let hi ← parseHex4 r2
    if 55296 ≤ hi.1 && hi.1 < 56320 then parseLowSurrogate hi.2 hi.1
    else if 56320 ≤ hi.1 && hi.1 < 57344 then none
    else some (Char.ofNat hi.1, hi.2)
  | _ => none

/-- One logical string character: an escape sequence after a backslash or a
literal character.  json.loads in strict mode rejects raw control
characters. -/
def parseUnit : List Char → Option (Char × List Char)
  | [] => none
  | c :: r =>
    if c = '\\' then parseEsc r
    else if c.toNat < 32 then none
    else some (c, r)

/-- The body of a JSON string after its opening quote: logical characters
until the closing quote; fuel bounds the number of units, the input length
is always enough. -/
def parseStrAux : Nat → List Char → List Char → Option (List Char × List Char)
  | 0, _, _ => none
  | fuel + 1, s, acc =>
    match s with
    | [] => none
    | c :: r =>
      if c = '"' then some (acc, r)
      else do
        let u ← parseUnit (c :: r)
        parseStrAux fuel u.2 (acc ++ [u.1])

/-- Python dict(pairs) semantics for one pair: a repeated key keeps its
first position but takes the new value. -/
def insertPair (acc : List (List Char × PyVal)) (k : List Char) (v : PyVal) :
    List (List Char × PyVal) :=
  if acc.any (fun kv => kv.1 == k) then
    acc.map (fun kv => if kv.1 == k then (kv.1, v) else kv)
  else acc ++ [(k, v)]

/-- The dict json.loads builds from the parsed key-value list. -/
def dictFromPairs (pairs : List (List Char × PyVal)) : List (PyVal × PyVal) :=
  (pairs.foldl (fun acc kv => insertPair acc kv.1 kv.2) []).map
    (fun kv => (PyVal.pystr kv.1, kv.2))

mutual

/-- json.loads value scanner: skips whitespace, dispatches on the first
character; fuel bounds the nesting and chain recursion, input length plus
one is always enough. -/
def parseVal : Nat → List Char → Option (PyVal × List Char)
  | 0, _ => none
  | fuel + 1, s =>
    match skipWs s with
    | [] => none
    | c :: r =>
      if c = '"' then
        (parseStrAux (r.length + 1) r []).map (fun p => (PyVal.pystr p.1, p.2))
      else if c = '[' then
        let s2 := skipWs r
        if s2.head? = some ']' then some (.pylist [], s2.tail)
        else (parseArrItems fuel r).map (fun p => (PyVal.pylist p.1, p.2))
      else if c = '{' then
        let s2 := skipWs r
        if s2.head? = some '}' then some (.pydict [], s2.tail)
        else (parseObjItems fuel r).map
          (fun p => (PyVal.pydict (dictFromPairs p.1), p.2))
      else if c = 'n' then
        (stripLit "ull".toList r).map (fun r2 => (PyVal.pynull, r2))
      else if c = 't' then
        (stripLit "rue".toList r).map (fun r2 => (PyVal.pybool true, r2))
      else if c = 'f' then
        (stripLit "alse".toList r).map (fun r2 => (PyVal.pybool false, r2))
      else if c = '-' then
        (parseUNum r).map (fun p => (PyVal.pyint (-(p.1 : Int)), p.2))
      else if isDigitChar c then
        (parseUNum (c :: r)).map (fun p => (PyVal.pyint (p.1 : Int), p.2))
      else none

/-- The items of a nonempty array after its opening bracket. -/
def parseArrItems : Nat → List Char → Option (List PyVal × List Char)
  | 0, _ => none
  | fuel + 1, s => do
    let v ← parseVal fuel s
    match skipWs v.2 with
    | c :: r2 =>
      if c = ',' then (parseArrItems fuel r2).map (fun p => (v.1 :: p.1, p.2))
      else if c = ']' then some ([v.1], r2)
      else none
    | [] => none

/-- The key-value items of a nonempty object after its opening brace; keys
must be quoted strings. -/
def parseObjItems : Nat → List Char → Option (List (List Char × PyVal) × List Char)
  | 0, _ => none
  | fuel + 1, s =>
    match skipWs s with
    | c :: r =>
      if c = '"' then do
        let k ← parseStrAux (r.length + 1) r []
        match skipWs k.2 with
        | c2 :: r2 =>
          if c2 = ':' then do
            let v ← parseVal fuel r2
            match skipWs v.2 with
            | c3 :: r4 =>
              if c3 = ',' then
                (parseObjItems fuel r4).map (fun p => ((k.1, v.1) :: p.1, p.2))
              else if c3 = '}' then some ([(k.1, v.1)], r4)
              else none
            | [] => none
          else none
        | [] => none
      else none
    | [] => none

end

/-- json.loads: parse one value with ample fuel and insist nothing but
whitespace follows (the Extra data error). -/
def loads (s : List Char) : Option PyVal := do
  let v ← parseVal (s.length + 1) s
  if skipWs v.2 = [] then some v.1 else none

/-- The string key of a canonical dict pair (arbitrary for non-string keys,
which canonical rules out). -/
def stripKey : PyVal × PyVal → List Char × PyVal :=
  fun kv => ((match kv.1 with | .pystr s => s | _ => []), kv.2)

/-- load_json from cmdlib.py: open the file (IOError when absent, the error
branch) and parse its contents as JSON (ValueError on malformed content,
also the error branch). -/
def load_json (fs : FS) (p : String) : Except Unit PyVal :=
  match fs.files p with
  | none => .error ()
  | some content =>
    match loads content with
    | some v => .ok v
    | none => .error ()

/-! ### Theorems -/

/-- C10: disk_ignition_version returns 2.2.0 exactly when the basename of the
path starts with one of rhcos-41, rhcos-42, rhcos-43, and 3.0.0 for every
other path. -/
theorem C10_disk_ignition_version (p : List Char) :
    (disk_ignition_version p = "2.2.0".toList ↔
      startswithAny rhcosStems (basename p) = true) ∧
    (startswithAny rhcosStems (basename p) = false →
      disk_ignition_version p = "3.0.0".toList) := by
  have hne : "3.0.0".toList ≠ "2.2.0".toList := by decide
  by_cases h : startswithAny rhcosStems (basename p) = true <;>
    simp [disk_ignition_version, h, hne]

/-- Witness for C10 at concrete paths: a path whose basename starts with
rhcos-42 maps to 2.2.0, one that does not maps to 3.0.0. -/
theorem C10_disk_ignition_version_witness :
    disk_ignition_version "build/rhcos-42.80.qcow2".toList = "2.2.0".toList ∧
    disk_ignition_version "build/fcos-31.qcow2".toList = "3.0.0".toList :=
  ⟨(C10_disk_ignition_version "build/rhcos-42.80.qcow2".toList).1.mpr (by decide),
   (C10_disk_ignition_version "build/fcos-31.qcow2".toList).2 (by decide)⟩

/-- Helper: once the memo attribute is set, any number of further calls
return the stored value, never query, and leave the attribute unchanged. -/
theorem get_basearch_calls_saved (n : Nat) (v plat : List Char) :
    get_basearch_calls n (some v) plat = (List.replicate n v, some v, 0) := by
  induction n with
  | zero => rfl
  | succ n ih => simp [get_basearch_calls, get_basearch, ih, List.replicate_succ]

/-- C9: within one process the external architecture lookup runs at most
once.  Starting from the unset attribute, n calls query exactly min n 1
times, every call returns the same string (the externally detected value),
and once set the attribute keeps that value forever. -/
theorem C9_get_basearch_memoized (n : Nat) (plat : List Char) :
    (get_basearch_calls n none plat).2.2 = min n 1 ∧
    (get_basearch_calls n none plat).1 = List.replicate n plat ∧
    (∀ v, get_basearch_calls n (some v) plat = (List.replicate n v, some v, 0)) := by
  refine ⟨?_, ?_, fun v => get_basearch_calls_saved n v plat⟩ <;>
    cases n <;>
    simp [get_basearch_calls, get_basearch, get_basearch_calls_saved, List.replicate_succ]

/-- Witness for C9 at n = 3: three calls return three equal strings and
query the external facility exactly once. -/
theorem C9_get_basearch_memoized_witness :
    (get_basearch_calls 3 none "x86_64".toList).2.2 = 1 ∧
    (get_basearch_calls 3 none "x86_64".toList).1 = List.replicate 3 "x86_64".toList :=
  ⟨(C9_get_basearch_memoized 3 "x86_64".toList).1,
   (C9_get_basearch_memoized 3 "x86_64".toList).2.1⟩

/-- C7: rfc3339_time with an explicitly supplied timestamp whose zone is not
UTC (a naive timestamp included) raises the assertion error and produces no
formatted output, while a timestamp carrying UTC passes the assert and is
formatted. -/
theorem C7_rfc3339_time_utc_only (now t : PyDatetime) :
    (t.tzn ≠ some "UTC".toList →
      rfc3339_time now (some t) = .error "Timestamp must be in UTC format".toList) ∧
    (t.tzn = some "UTC".toList →
      rfc3339_time now (some t) = .ok (strftimeRfc3339 t)) := by
  constructor <;> intro h
  · simp only [rfc3339_time]
    rw [if_neg h]
  · simp only [rfc3339_time]
    rw [if_pos h]

/-- Witness for C7: a naive 2021-01-01 00:00:00 timestamp is rejected, the
same instant carrying UTC formats as 2021-01-01T00:00:00Z. -/
theorem C7_rfc3339_time_utc_only_witness :
    rfc3339_time ⟨2021, 1, 1, 0, 0, 0, none⟩ (some ⟨2021, 1, 1, 0, 0, 0, none⟩)
      = .error "Timestamp must be in UTC format".toList ∧
    rfc3339_time ⟨2021, 1, 1, 0, 0, 0, none⟩ (some ⟨2021, 1, 1, 0, 0, 0, some "UTC".toList⟩)
      = .ok "2021-01-01T00:00:00Z".toList := by
  refine ⟨(C7_rfc3339_time_utc_only _ _).1 (by decide), ?_⟩
  have h := (C7_rfc3339_time_utc_only ⟨2021, 1, 1, 0, 0, 0, none⟩
    ⟨2021, 1, 1, 0, 0, 0, some "UTC".toList⟩).2 rfl
  rw [h]
  exact congrArg Except.ok (by decide)

/-- C6: run_verbose prints the quoted command line before executing, treats a
non-zero exit as fatal when check was not supplied (SystemExit naming
args[0]), and returns the CompletedProcess when the caller overrides
checking with check=False. -/
theorem C6_run_verbose (a : List Char) (args : List (List Char))
    (kw : RunKwargs) (exitCode : Nat) :
    (run_verbose (a :: args) kw exitCode).1 = ['+' :: ' ' :: list2cmdline (a :: args)] ∧
    (kw.chk = none → exitCode ≠ 0 →
      (run_verbose (a :: args) kw exitCode).2 =
        .error ("Error running command ".toList ++ a)) ∧
    (kw.chk = some false →
      (run_verbose (a :: args) kw exitCode).2 = .ok ⟨exitCode⟩) := by
  refine ⟨?_, fun hc he => ?_, fun hc => ?_⟩
  · cases h : (kw.chk.getD true && !(exitCode == 0)) <;> simp [run_verbose, h]
  · have h : (kw.chk.getD true && !(exitCode == 0)) = true := by simp [hc, he]
    simp [run_verbose, h]
  · have h : (kw.chk.getD true && !(exitCode == 0)) = false := by simp [hc]
    simp [run_verbose, h]

/-- Witness for C6: running a failing program with no check keyword is fatal
with the program name in the message; with check=False the exit status is
returned, and the echoed line is printed in both cases. -/
theorem C6_run_verbose_witness :
    (run_verbose ["false".toList] ⟨none, false⟩ 1).1 = ["+ false".toList] ∧
    (run_verbose ["false".toList] ⟨none, false⟩ 1).2 =
      .error "Error running command false".toList ∧
    (run_verbose ["false".toList] ⟨some false, false⟩ 1).2 = .ok ⟨1⟩ := by
  refine ⟨?_, (C6_run_verbose "false".toList [] ⟨none, false⟩ 1).2.1 rfl (by decide),
    (C6_run_verbose "false".toList [] ⟨some false, false⟩ 1).2.2 rfl⟩
  have h := (C6_run_verbose "false".toList [] ⟨none, false⟩ 1).1
  rw [h]
  decide

/-- C1: when the commit is already present, no partial marker exists and
force is false, import_ostree_commit returns right after the probe, spawning
neither the extraction nor the pull and leaving the repository unchanged
apart from the idempotent init; consequently of two successive successful
calls with identical arguments and force false, only the first can perform
extraction or pull - the second stops at the probe and is a no-op on the
repository state. -/
theorem C1_import_ostree_commit_idempotent (env1 env2 : ImportEnv) (r : OstreeRepo) :
    (env1.initFails = false → env1.probeFails = false →
      r.hasCommit = true → r.hasMarker = false →
      import_ostree_commit env1 r false =
        ({ r with initialized := true }, [.init, .probe], .ok ())) ∧
    (env1 = allOkEnv → env2 = allOkEnv →
      import_ostree_commit env2 (import_ostree_commit env1 r false).1 false =
        ((import_ostree_commit env1 r false).1, [.init, .probe], .ok ())) := by
  obtain ⟨ini, hc, hm⟩ := r
  constructor
  · intro h1 h2 h3 h4
    subst h3 h4
    simp [import_ostree_commit, h1, h2]
  · intro h1 h2
    subst h1 h2
    cases hc <;> cases hm <;> simp [import_ostree_commit, allOkEnv]

/-- Witness for C1: a repository already holding the commit with no marker is
untouched and sees no extract or pull; starting from an empty repository, the
first call pulls and the second stops at the probe. -/
theorem C1_import_ostree_commit_idempotent_witness :
    import_ostree_commit allOkEnv ⟨true, true, false⟩ false =
      (⟨true, true, false⟩, [.init, .probe], .ok ()) ∧
    import_ostree_commit allOkEnv
        (import_ostree_commit allOkEnv ⟨false, false, false⟩ false).1 false =
      ((import_ostree_commit allOkEnv ⟨false, false, false⟩ false).1,
       [.init, .probe], .ok ()) :=
  ⟨(C1_import_ostree_commit_idempotent allOkEnv allOkEnv ⟨true, true, false⟩).1
      rfl rfl rfl rfl,
   (C1_import_ostree_commit_idempotent allOkEnv allOkEnv ⟨false, false, false⟩).2
      rfl rfl⟩

/-- C4 counterexample: a non-zero exit of the silently executed existence
check does not propagate as an error.  With the commit present and no marker
but the probe subprocess failing, init, probe, extract and pull all run and
the call returns ok - the non-zero probe status was swallowed and treated as
the commit being absent, contradicting the claim that any of the four
subprocess failures is fatal. -/
theorem C4_probe_failure_not_fatal :
    (import_ostree_commit ⟨false, true, false, false⟩ ⟨true, true, false⟩ false).2 =
      ([.init, .probe, .extract, .pull], .ok ()) := rfl

/-- C4 amended: the call is fatal exactly when ostree init fails, or the
skip condition does not hold (probe failed, commit absent, marker present,
or force) and tar extraction or ostree pull-local fails.  A non-zero exit of
the existence probe alone is never fatal; it only routes the call into the
extraction and pull path. -/
theorem C4_import_ostree_commit_failure_propagation
    (env : ImportEnv) (r : OstreeRepo) (force : Bool) :
    (import_ostree_commit env r force).2.2 = .error () ↔
      (env.initFails = true ∨
        ((!env.probeFails && r.hasCommit && !r.hasMarker && !force) = false ∧
          (env.extractFails = true ∨ env.pullFails = true))) := by
  obtain ⟨i, p, e, pl⟩ := env
  obtain ⟨ini, hc, hm⟩ := r
  cases force <;> cases i <;> cases p <;> cases e <;> cases pl <;> cases hc <;>
    cases hm <;> simp [import_ostree_commit]

/-- Helper: folding list append over the chunks accumulates their
concatenation. -/
theorem foldl_append_eq_join (l : List (List α)) (acc : List α) :
    l.foldl (fun a b => a ++ b) acc = acc ++ l.flatten := by
  induction l generalizing acc with
  | nil => simp
  | cons x xs ih => simp [List.foldl_cons, ih, List.append_assoc]

/-- Helper: the chunks of a list concatenate back to the list. -/
theorem chunksOfAux_join (n : Nat) (hn : 0 < n) :
    ∀ (fuel : Nat) (l : List α), l.length ≤ fuel → (chunksOfAux n fuel l).flatten = l := by
  intro fuel
  induction fuel with
  | zero =>
    intro l hl
    have : l = [] := List.length_eq_zero.mp (Nat.le_zero.mp hl)
    simp [this, chunksOfAux]
  | succ fuel ih =>
    intro l hl
    match l with
    | [] => simp [chunksOfAux]
    | x :: xs =>
      have hdrop : ((x :: xs).drop n).length ≤ fuel := by
        simp only [List.length_drop, List.length_cons] at *
        omega
      simp only [chunksOfAux, List.flatten_cons, ih _ hdrop]
      exact List.take_append_drop n (x :: xs)

/-- C8: sha256sum_file on a zero-length file is the well-known empty-string
SHA-256 digest, and on every file the chunked streaming read feeds exactly
the full contents to the hash, so the result is the lowercase hex SHA-256 of
the whole file. -/
theorem C8_sha256sum_file_digest :
    sha256sum_file [] =
      "e3b0c44298fc1c149afbf4c8996fb92427ae41e4649b934ca495991b7852b855".toList ∧
    ∀ content : List Nat, sha256sum_file content = sha256hex content := by
  constructor
  · decide
  · intro content
    unfold sha256sum_file chunksOf
    rw [foldl_append_eq_join, List.nil_append,
      chunksOfAux_join 131072 (by omega) content.length content (Nat.le_refl _)]

/-- C2: write_json is all-or-nothing at path.  A call that returns ok leaves
exactly the complete new serialization at path; a call that fails - whether
the data was unserializable or an OSError hit the create, dump, fchmod or
rename step - leaves the prior content of path, or its absence, untouched.
No partially written content is ever at path, because the dump only ever
touches the fresh temp name and the rename installs the finished file in one
step. -/
theorem C2_write_json_atomic (fs : FS) (p tmp : String) (data : PyVal)
    (failAt : Option WStep) (stub : List Char) (hfresh : tmp ≠ p) :
    ((write_json fs p tmp data failAt stub).2 = .ok () →
      ∃ out, dumps data = some out ∧
        (write_json fs p tmp data failAt stub).1.files p = some out) ∧
    ((write_json fs p tmp data failAt stub).2 = .error () →
      (write_json fs p tmp data failAt stub).1.files p = fs.files p) := by
  have hq : (p = tmp) = False := eq_false (fun h => hfresh h.symm)
  rcases failAt with _ | step
  · cases hd : dumps data with
    | none =>
      refine ⟨fun h => absurd h (by simp [write_json, hd]), fun _ => ?_⟩
      simp [write_json, hd, FS.put, hq]
    | some out =>
      refine ⟨fun _ => ⟨out, hd ▸ rfl, ?_⟩, fun h => absurd h (by simp [write_json, hd])⟩
      simp [write_json, hd, FS.put, hq]
  · cases step <;> cases hd : dumps data <;>
      refine ⟨fun h => absurd h (by simp [write_json, hd]), fun _ => ?_⟩ <;>
      simp [write_json, hd, FS.put, hq]

/-- Witness for C2: writing None into an empty filesystem succeeds and the
file then holds the serialization of None. -/
theorem C2_write_json_atomic_witness :
    ∃ out, dumps .pynull = some out ∧
      (write_json ⟨fun _ => none⟩ "f.json" "tmp1" .pynull none []).1.files "f.json" =
        some out :=
  (C2_write_json_atomic ⟨fun _ => none⟩ "f.json" "tmp1" .pynull none []
    (by decide)).1 rfl

/-- C5 (the code contradicts the required cleanup): on the serialization
failure path the temporary file leaks.  The dict with a tuple key is not
JSON-serializable, so json.dump raises TypeError and write_json propagates
it - but the NamedTemporaryFile was created with delete=False and no cleanup
handler runs, so the temp file is still on disk afterwards while the target
path stays absent. -/
theorem C5_write_json_temp_leaked :
    (write_json ⟨fun _ => none⟩ "out.json" "tmpfile"
        (.pydict [(.pytuple [], .pystr ['x'])]) none []).2 = .error () ∧
    (write_json ⟨fun _ => none⟩ "out.json" "tmpfile"
        (.pydict [(.pytuple [], .pystr ['x'])]) none []).1.files "tmpfile" = some [] ∧
    (write_json ⟨fun _ => none⟩ "out.json" "tmpfile"
        (.pydict [(.pytuple [], .pystr ['x'])]) none []).1.files "out.json" = none :=
  ⟨rfl, rfl, rfl⟩

/-- C3 counterexample: the write-then-load round trip is not the identity on
every JSON-serializable value.  The int-keyed dict with key 1 and value a is
serializable - writing it returns ok - but loading the file back yields the
dict with the string key composed of the character 1: json.dump silently
coerced the int key to a string. -/
theorem C3_roundtrip_counterexample :
    (write_json ⟨fun _ => none⟩ "d.json" "tmpf"
        (.pydict [(.pyint 1, .pystr ['a'])]) none []).2 = .ok () ∧
    load_json (write_json ⟨fun _ => none⟩ "d.json" "tmpf"
        (.pydict [(.pyint 1, .pystr ['a'])]) none []).1 "d.json" =
      .ok (.pydict [(.pystr ['1'], .pystr ['a'])]) ∧
    PyVal.pydict [(.pystr ['1'], .pystr ['a'])] ≠
      PyVal.pydict [(.pyint 1, .pystr ['a'])] :=
  ⟨rfl, rfl, by simp⟩

/-! ### Round-trip helper lemmas: whitespace, literals, digits -/

/-- A whitespace character is not a digit. -/
theorem isWsChar_not_digit (c : Char) (h : isWsChar c = true) : isDigitChar c = false := by
  simp only [isWsChar, Bool.or_eq_true, decide_eq_true_eq] at h
  rcases h with ((h | h) | h) | h <;> subst h <;> decide

/-- skipWs passes over an all-whitespace block. -/
theorem skipWs_all (w : List Char) (s : List Char) (h : w.all isWsChar = true) :
    skipWs (w ++ s) = skipWs s := by
  induction w with
  | nil => rfl
  | cons c w ih =>
    simp only [List.all_cons, Bool.and_eq_true] at h
    simp [skipWs, h.1, ih h.2]

/-- skipWs stops at a non-whitespace character. -/
theorem skipWs_cons_of_not (c : Char) (r : List Char) (h : isWsChar c = false) :
    skipWs (c :: r) = c :: r := by
  simp [skipWs, h]

/-- The emitted newline-indent block is all whitespace. -/
theorem allWs_nlPad (lvl : Nat) : (nlPad lvl).all isWsChar = true := by
  simp only [nlPad, List.all_cons, Bool.and_eq_true, List.all_eq_true]
  exact ⟨by decide, fun c hc => by rw [List.eq_of_mem_replicate hc]; decide⟩

/-- A matched literal is consumed exactly. -/
theorem stripLit_self (p t : List Char) : stripLit p (p ++ t) = some t := by
  induction p with
  | nil => rfl
  | cons c p ih => simp [stripLit, ih]

/-- Whitespace followed by a closing character never starts with a digit. -/
theorem noLeadDigit_ws (w : List Char) (c0 : Char) (r : List Char)
    (hw : w.all isWsChar = true) (h0 : isDigitChar c0 = false) :
    noLeadDigit (w ++ c0 :: r) = true := by
  cases w with
  | nil => simp [noLeadDigit, h0]
  | cons c ws =>
    simp only [List.all_cons, Bool.and_eq_true] at hw
    simp [noLeadDigit, isWsChar_not_digit c hw.1]

/-- Digit characters read back their value. -/
theorem toNat_digit_char (d : Nat) (h : d < 10) : (Char.ofNat (48 + d)).toNat = 48 + d := by
  interval_cases d <;> decide

/-- Digit characters satisfy the digit test. -/
theorem isDigit_digit_char (d : Nat) (h : d < 10) :
    isDigitChar (Char.ofNat (48 + d)) = true := by
  interval_cases d <;> decide

/-- Only the zero digit prints as the zero character. -/
theorem digit_char_eq_zero_iff (d : Nat) (h : d < 10) :
    (Char.ofNat (48 + d) = '0') ↔ d = 0 := by
  interval_cases d <;> decide

/-- A digit character is none of the parser's dispatch characters. -/
theorem digit_not_special (c : Char) (h : isDigitChar c = true) :
    c ≠ '"' ∧ c ≠ '[' ∧ c ≠ '{' ∧ c ≠ 'n' ∧ c ≠ 't' ∧ c ≠ 'f' ∧ c ≠ '-' ∧
      isWsChar c = false ∧ c ≠ ']' ∧ c ≠ '}' ∧ c ≠ ',' := by
  have hn : 48 ≤ c.toNat ∧ c.toNat ≤ 57 := by simpa [isDigitChar] using h
  have hws : isWsChar c = false := by
    cases hw : isWsChar c
    · rfl
    · rw [isWsChar_not_digit c hw] at h
      exact Bool.noConfusion h
  refine ⟨fun e => ?_, fun e => ?_, fun e => ?_, fun e => ?_, fun e => ?_, fun e => ?_,
    fun e => ?_, hws, fun e => ?_, fun e => ?_, fun e => ?_⟩ <;>
    rw [e] at hn <;> exact absurd hn (by decide)

/-- natDecAux computes the base-ten digit characters. -/
theorem natDecAux_eq (n : Nat) : ∀ (fuel : Nat) (acc : List Char), n ≠ 0 → n ≤ fuel →
    natDecAux fuel n acc =
      ((Nat.digits 10 n).reverse.map (fun d => Char.ofNat (48 + d))) ++ acc := by
  induction n using Nat.strong_induction_on with
  | _ n ih =>
    intro fuel acc hn hfuel
    cases fuel with
    | zero => omega
    | succ f =>
      cases n with
      | zero => omega
      | succ m =>
        rw [show natDecAux (f + 1) (m + 1) acc =
          natDecAux f ((m + 1) / 10) (Char.ofNat (48 + (m + 1) % 10) :: acc) from rfl]
        rw [Nat.digits_def' (by omega : 1 < 10) (Nat.succ_pos m)]
        by_cases h10 : (m + 1) / 10 = 0
        · rw [h10]
          have hz : natDecAux f 0 (Char.ofNat (48 + (m + 1) % 10) :: acc) =
              Char.ofNat (48 + (m + 1) % 10) :: acc := by
            cases f <;> rfl
          rw [hz, Nat.digits_zero]
          simp
        · rw [ih ((m + 1) / 10) (Nat.div_lt_self (Nat.succ_pos m) (by omega)) f
            (Char.ofNat (48 + (m + 1) % 10) :: acc) h10 (by omega)]
          simp

/-- natDec prints the reversed digit list for a nonzero number. -/
theorem natDec_eq (n : Nat) (hn : n ≠ 0) :
    natDec n = (Nat.digits 10 n).reverse.map (fun d => Char.ofNat (48 + d)) := by
  rw [natDec, if_neg hn, natDecAux_eq n n [] hn (Nat.le_refl n), List.append_nil]

/-- takeDigits consumes exactly a digit block when what follows starts with
no digit. -/
theorem takeDigits_append (L r : List Char) (hL : L.all isDigitChar = true)
    (hr : noLeadDigit r = true) : takeDigits (L ++ r) = (L, r) := by
  induction L with
  | nil =>
    cases r with
    | nil => rfl
    | cons c r2 =>
      simp only [noLeadDigit, Bool.not_eq_true'] at hr
      simp [takeDigits, hr]
  | cons c L2 ih =>
    simp only [List.all_cons, Bool.and_eq_true] at hL
    simp [takeDigits, hL.1, ih hL.2]

/-- Folding the digit characters of a little-endian digit list (printed big
endian) recovers the value. -/
theorem foldl_digit_chars (L : List Nat) : ∀ (a : Nat), (∀ d ∈ L, d < 10) →
    List.foldl (fun x c => 10 * x + (c.toNat - 48)) a
      (L.reverse.map (fun d => Char.ofNat (48 + d))) =
      a * 10 ^ L.length + Nat.ofDigits 10 L := by
  induction L with
  | nil => intro a _; simp
  | cons d L2 ih =>
    intro a hd
    rw [List.reverse_cons, List.map_append, List.foldl_append,
      ih a (fun x hx => hd x (List.mem_cons_of_mem d hx))]
    simp only [List.map_cons, List.map_nil, List.foldl_cons, List.foldl_nil,
      Nat.ofDigits_cons, List.length_cons]
    rw [toNat_digit_char d (hd d (List.mem_cons_self d L2))]
    ring_nf
    omega

/-- Every character natDec prints is a digit. -/
theorem natDec_all_digits (n : Nat) : (natDec n).all isDigitChar = true := by
  by_cases hn : n = 0
  · subst hn; decide
  · rw [natDec_eq n hn]
    simp only [List.all_eq_true, List.mem_map, List.mem_reverse]
    rintro c ⟨d, hd, rfl⟩
    exact isDigit_digit_char d (Nat.digits_lt_base (by omega) hd)

/-- natDec always prints at least one character, led by a digit. -/
theorem natDec_cons (n : Nat) : ∃ c r, natDec n = c :: r ∧ isDigitChar c = true := by
  have hall := natDec_all_digits n
  cases hh : natDec n with
  | nil =>
    exfalso
    by_cases hn : n = 0
    · subst hn; simp [natDec] at hh
    · rw [natDec_eq n hn] at hh
      simp only [List.map_eq_nil_iff, List.reverse_eq_nil_iff] at hh
      exact Nat.digits_ne_nil_iff_ne_zero.mpr hn hh
  | cons c r =>
    rw [hh] at hall
    simp only [List.all_cons, Bool.and_eq_true] at hall
    exact ⟨c, r, rfl, hall.1⟩

/-- The number parser reads back exactly what natDec printed. -/
theorem parseUNum_natDec (n : Nat) (rest : List Char) (hr : noLeadDigit rest = true) :
    parseUNum (natDec n ++ rest) = some (n, rest) := by
  by_cases hn : n = 0
  · subst hn
    simp [natDec, parseUNum]
  · rw [natDec_eq n hn]
    have hnil : Nat.digits 10 n ≠ [] := Nat.digits_ne_nil_iff_ne_zero.mpr hn
    obtain ⟨d, ds, hrev⟩ : ∃ d ds, (Nat.digits 10 n).reverse = d :: ds := by
      cases hh : (Nat.digits 10 n).reverse with
      | nil => exact absurd (List.reverse_eq_nil_iff.mp hh) hnil
      | cons d ds => exact ⟨d, ds, rfl⟩
    have hdigits : Nat.digits 10 n = ds.reverse ++ [d] := by
      rw [← List.reverse_reverse (Nat.digits 10 n), hrev]
      simp
    have hdmem : ∀ x ∈ d :: ds, x < 10 := by
      intro x hx
      apply Nat.digits_lt_base (by omega : 1 < 10)
      rw [hdigits, List.mem_append, List.mem_reverse]
      simp only [List.mem_cons] at hx
      rcases hx with rfl | hx
      · exact Or.inr (List.mem_singleton_self x)
      · exact Or.inl hx
    have hd10 : d < 10 := hdmem d (List.mem_cons_self d ds)
    have hdne : d ≠ 0 := by
      have h4 : (Nat.digits 10 n).getLast? = some d := by
        rw [hdigits]
        simp
      rw [List.getLast?_eq_getLast _ hnil] at h4
      rw [← Option.some_inj.mp h4]
      exact Nat.getLast_digit_ne_zero 10 hn
    have hall : ((d :: ds).map (fun x => Char.ofNat (48 + x))).all isDigitChar = true := by
      simp only [List.all_eq_true, List.mem_map]
      rintro c ⟨x, hx, rfl⟩
      exact isDigit_digit_char x (hdmem x hx)
    have ht := takeDigits_append ((d :: ds).map (fun x => Char.ofNat (48 + x))) rest hall hr
    rw [hrev]
    simp only [List.map_cons, List.cons_append] at ht ⊢
    rw [show parseUNum (Char.ofNat (48 + d) ::
        (List.map (fun x => Char.ofNat (48 + x)) ds ++ rest)) =
      if Char.ofNat (48 + d) = '0' then
        some (0, List.map (fun x => Char.ofNat (48 + x)) ds ++ rest)
      else if isDigitChar (Char.ofNat (48 + d)) = true then
        some (digitsToNat (takeDigits (Char.ofNat (48 + d) ::
          (List.map (fun x => Char.ofNat (48 + x)) ds ++ rest))).1,
          (takeDigits (Char.ofNat (48 + d) ::
            (List.map (fun x => Char.ofNat (48 + x)) ds ++ rest))).2)
      else none from rfl]
    rw [if_neg (fun he => hdne ((digit_char_eq_zero_iff d hd10).mp he)),
      if_pos (isDigit_digit_char d hd10), ht]
    have hv : digitsToNat (Char.ofNat (48 + d) ::
        List.map (fun x => Char.ofNat (48 + x)) ds) = n := by
    -- the printed characters are the reversed digit list of n
      have : (Char.ofNat (48 + d) :: List.map (fun x => Char.ofNat (48 + x)) ds) =
          (Nat.digits 10 n).reverse.map (fun x => Char.ofNat (48 + x)) := by
        rw [hrev, List.map_cons]
      rw [digitsToNat, this,
        foldl_digit_chars (Nat.digits 10 n) 0
          (fun x hx => Nat.digits_lt_base (by omega) hx)]
      simp [Nat.ofDigits_digits]
    rw [hv]

/-! ### Round-trip helper lemmas: strings and escapes -/

/-- The scalar-value bounds every Char satisfies: below the surrogate block
or above it and below the Unicode ceiling. -/
theorem char_toNat_valid (c : Char) :
    c.toNat < 55296 ∨ (57343 < c.toNat ∧ c.toNat < 1114112) := by
  have h := c.valid
  unfold UInt32.isValidChar Nat.isValidChar at h
  have he : c.toNat = c.val.toNat := rfl
  omega

/-- Hex digit characters read back their value. -/
theorem hexVal_hexDigitChar (d : Nat) (h : d < 16) : hexVal (hexDigitChar d) = some d := by
  interval_cases d <;> decide

/-- parseHex4 reads back the four hex digits uEscape printed. -/
theorem parseHex4_uEscape (v : Nat) (t : List Char) (hv : v < 65536) :
    parseHex4 (hexDigitChar (v / 4096 % 16) :: hexDigitChar (v / 256 % 16) ::
      hexDigitChar (v / 16 % 16) :: hexDigitChar (v % 16) :: t) = some (v, t) := by
  simp only [parseHex4,
    hexVal_hexDigitChar (v / 4096 % 16) (by omega),
    hexVal_hexDigitChar (v / 256 % 16) (by omega),
    hexVal_hexDigitChar (v / 16 % 16) (by omega),
    hexVal_hexDigitChar (v % 16) (by omega)]
  have harith : v / 4096 % 16 * 4096 + v / 256 % 16 * 256 + v / 16 % 16 * 16 + v % 16 = v := by
    omega
  simp [harith]

set_option maxHeartbeats 1000000 in
/-- A backslash starts an escape. -/
theorem parseUnit_backslash (r : List Char) : parseUnit ('\\' :: r) = parseEsc r := by
  simp [parseUnit]

set_option maxHeartbeats 1000000 in
/-- The u arm of the escape table. -/
theorem parseEsc_u (r : List Char) : parseEsc ('u' :: r) =
    (do
      let hi ← parseHex4 r
      if 55296 ≤ hi.1 && hi.1 < 56320 then parseLowSurrogate hi.2 hi.1
      else if 56320 ≤ hi.1 && hi.1 < 57344 then none
      else some (Char.ofNat hi.1, hi.2)) := by
  simp [parseEsc]

/-- parseUnit on a single backslash-u escape of a non-surrogate 16-bit code
unit returns that character. -/
theorem parseUnit_uEscape_bmp (v : Nat) (t : List Char) (hv : v < 65536)
    (hs1 : ¬(55296 ≤ v ∧ v < 56320)) (hs2 : ¬(56320 ≤ v ∧ v < 57344)) :
    parseUnit (uEscape v ++ t) = some (Char.ofNat v, t) := by
  simp only [uEscape, List.cons_append, List.nil_append]
  rw [parseUnit_backslash, parseEsc_u]
  rw [parseHex4_uEscape v t hv]
  by_cases hb : 55296 ≤ v
  · have hb2 : ¬ v < 56320 := fun h => hs1 ⟨hb, h⟩
    have hb4 : ¬ v < 57344 := fun h => hs2 ⟨by omega, h⟩
    simp [hb, hb2, hb4]
  · have hb5 : ¬ 56320 ≤ v := by omega
    simp [hb, hb5]

/-- parseUnit on a surrogate-pair escape returns the combined astral
character. -/
theorem parseUnit_uEscape_pair (hi lo : Nat) (t : List Char)
    (hhi1 : 55296 ≤ hi) (hhi2 : hi < 56320) (hlo1 : 56320 ≤ lo) (hlo2 : lo < 57344) :
    parseUnit (uEscape hi ++ (uEscape lo ++ t)) =
      some (Char.ofNat (65536 + (hi - 55296) * 1024 + (lo - 56320)), t) := by
  simp only [uEscape, List.cons_append, List.nil_append]
  rw [parseUnit_backslash, parseEsc_u]
  rw [parseHex4_uEscape hi ('\\' :: 'u' ::
    (hexDigitChar (lo / 4096 % 16) :: hexDigitChar (lo / 256 % 16) ::
      hexDigitChar (lo / 16 % 16) :: hexDigitChar (lo % 16) :: t)) (by omega)]
  simp only [Option.bind_eq_bind, Option.some_bind]
  rw [if_pos (by simp [hhi1, hhi2])]
  simp only [parseLowSurrogate]
  rw [parseHex4_uEscape lo t (by omega)]
  simp only [Option.bind_eq_bind, Option.some_bind]
  rw [if_pos (by simp [hlo1, hlo2])]

/-- parseUnit reads back exactly what escapeChar printed, for every
character. -/
theorem parseUnit_escapeChar (c : Char) (t : List Char) :
    parseUnit (escapeChar c ++ t) = some (c, t) := by
  by_cases h1 : c = '\\'
  · subst h1; rfl
  by_cases h2 : c = '"'
  · subst h2; rfl
  by_cases h3 : c = Char.ofNat 8
  · subst h3; rfl
  by_cases h4 : c = '\t'
  · subst h4; rfl
  by_cases h5 : c = '\n'
  · subst h5; rfl
  by_cases h6 : c = Char.ofNat 12
  · subst h6; rfl
  by_cases h7 : c = Char.ofNat 13
  · subst h7; rfl
  have hchain : escapeChar c =
      if c.toNat < 32 then uEscape c.toNat
      else if c.toNat < 127 then [c]
      else if c.toNat < 65536 then uEscape c.toNat
      else uEscape (55296 + (c.toNat - 65536) / 1024) ++
        uEscape (56320 + (c.toNat - 65536) % 1024) := by
    simp [escapeChar, h1, h2, h3, h4, h5, h6, h7]
  rw [hchain]
  by_cases h8 : c.toNat < 32
  · rw [if_pos h8, parseUnit_uEscape_bmp c.toNat t (by omega) (by omega) (by omega),
      Char.ofNat_toNat]
  rw [if_neg h8]
  by_cases h9 : c.toNat < 127
  · rw [if_pos h9]
    simp only [List.cons_append, List.nil_append]
    simp [parseUnit, h1, h8]
  rw [if_neg h9]
  have hval := char_toNat_valid c
  by_cases h10 : c.toNat < 65536
  · rw [if_pos h10, parseUnit_uEscape_bmp c.toNat t h10 (by omega) (by omega),
      Char.ofNat_toNat]
  rw [if_neg h10]
  -- astral character: a surrogate pair of two escapes
  have hup : c.toNat < 1114112 := by omega
  have hoff : c.toNat - 65536 < 1048576 := by omega
  rw [List.append_assoc]
  rw [parseUnit_uEscape_pair (55296 + (c.toNat - 65536) / 1024)
    (56320 + (c.toNat - 65536) % 1024) t (by omega) (by omega) (by omega) (by omega)]
  have hval2 : 65536 + (55296 + (c.toNat - 65536) / 1024 - 55296) * 1024 +
      (56320 + (c.toNat - 65536) % 1024 - 56320) = c.toNat := by omega
  rw [hval2, Char.ofNat_toNat]


/-- escapeChar once the seven shortcut characters are excluded. -/
theorem escapeChar_of_not_special (c : Char) (h1 : c ≠ '\\') (h2 : c ≠ '"')
    (h3 : c ≠ Char.ofNat 8) (h4 : c ≠ '\t') (h5 : c ≠ '\n') (h6 : c ≠ Char.ofNat 12)
    (h7 : c ≠ Char.ofNat 13) :
    escapeChar c =
      if c.toNat < 32 then uEscape c.toNat
      else if c.toNat < 127 then [c]
      else if c.toNat < 65536 then uEscape c.toNat
      else uEscape (55296 + (c.toNat - 65536) / 1024) ++
        uEscape (56320 + (c.toNat - 65536) % 1024) := by
  simp [escapeChar, h1, h2, h3, h4, h5, h6, h7]

/-- The cons shape of a backslash-u escape. -/
theorem uEscape_cons (v : Nat) : uEscape v =
    '\\' :: 'u' :: hexDigitChar (v / 4096 % 16) :: hexDigitChar (v / 256 % 16) ::
      hexDigitChar (v / 16 % 16) :: hexDigitChar (v % 16) :: [] := rfl

/-- escapeChar output is nonempty and never starts with a quote. -/
theorem escapeChar_cons (c : Char) :
    ∃ c0 cs, escapeChar c = c0 :: cs ∧ c0 ≠ '"' := by
  by_cases h1 : c = '\\'
  · exact ⟨'\\', ['\\'], by subst h1; rfl, by decide⟩
  by_cases h2 : c = '"'
  · exact ⟨'\\', ['"'], by subst h2; rfl, by decide⟩
  by_cases h3 : c = Char.ofNat 8
  · exact ⟨'\\', ['b'], by subst h3; rfl, by decide⟩
  by_cases h4 : c = '\t'
  · exact ⟨'\\', ['t'], by subst h4; rfl, by decide⟩
  by_cases h5 : c = '\n'
  · exact ⟨'\\', ['n'], by subst h5; rfl, by decide⟩
  by_cases h6 : c = Char.ofNat 12
  · exact ⟨'\\', ['f'], by subst h6; rfl, by decide⟩
  by_cases h7 : c = Char.ofNat 13
  · exact ⟨'\\', ['r'], by subst h7; rfl, by decide⟩
  rw [escapeChar_of_not_special c h1 h2 h3 h4 h5 h6 h7]
  by_cases h8 : c.toNat < 32
  · rw [if_pos h8, uEscape_cons]
    exact ⟨'\\', _, rfl, by decide⟩
  rw [if_neg h8]
  by_cases h9 : c.toNat < 127
  · rw [if_pos h9]
    exact ⟨c, [], rfl, h2⟩
  rw [if_neg h9]
  by_cases h10 : c.toNat < 65536
  · rw [if_pos h10, uEscape_cons]
    exact ⟨'\\', _, rfl, by decide⟩
  · rw [if_neg h10, uEscape_cons, List.cons_append]
    exact ⟨'\\', _, rfl, by decide⟩

/-- Escaping never shortens a string. -/
theorem length_le_flatMap_escape (s : List Char) :
    s.length ≤ (s.flatMap escapeChar).length := by
  induction s with
  | nil => simp
  | cons c s ih =>
    obtain ⟨c0, cs, hesc, _⟩ := escapeChar_cons c
    simp only [List.flatMap_cons, List.length_append, List.length_cons, hesc]
    omega

/-- The string-body scanner reads back exactly the characters escapeChar
printed and stops at the closing quote. -/
theorem parseStrAux_escaped (s : List Char) : ∀ (fuel : Nat) (acc rest : List Char),
    s.length + 1 ≤ fuel →
    parseStrAux fuel (s.flatMap escapeChar ++ '"' :: rest) acc = some (acc ++ s, rest) := by
  induction s with
  | nil =>
    intro fuel acc rest hf
    cases fuel with
    | zero => omega
    | succ f => simp [parseStrAux]
  | cons c s ih =>
    intro fuel acc rest hf
    cases fuel with
    | zero => simp at hf
    | succ f =>
      obtain ⟨c0, cs, hesc, hq⟩ := escapeChar_cons c
      have hshape : (c :: s).flatMap escapeChar ++ '"' :: rest =
          c0 :: (cs ++ (s.flatMap escapeChar ++ '"' :: rest)) := by
        simp [List.flatMap_cons, hesc]
      rw [hshape]
      simp only [parseStrAux]
      rw [if_neg hq]
      have hback : c0 :: (cs ++ (s.flatMap escapeChar ++ '"' :: rest)) =
          escapeChar c ++ (s.flatMap escapeChar ++ '"' :: rest) := by
        simp [hesc]
      rw [hback, parseUnit_escapeChar c (s.flatMap escapeChar ++ '"' :: rest)]
      simp only [Option.bind_eq_bind, Option.some_bind]
      rw [ih f (acc ++ [c]) rest (by simp at hf ⊢; omega)]
      simp

/-! ### Round-trip helper lemmas: dict reconstruction -/

/-- A key that keyMem rules out matches no key of the list. -/
theorem keyMem_false_forall (k : PyVal) (kvs : List (PyVal × PyVal))
    (h : keyMem k kvs = false) : ∀ kv ∈ kvs, sameKey k kv.1 = false := by
  induction kvs with
  | nil => intro kv hkv; cases hkv
  | cons kv2 kvs ih =>
    simp only [keyMem, Bool.or_eq_false_iff] at h
    intro kv hkv
    rcases List.mem_cons.mp hkv with rfl | hkv
    · exact h.1
    · exact ih h.2 kv hkv

/-- Inserting pairwise-distinct fresh keys is plain appending: Python's
dict(pairs) keeps them all in order. -/
theorem foldl_insertPair (pairs : List (List Char × PyVal)) :
    ∀ acc, (∀ kv ∈ pairs, ∀ kv2 ∈ acc, kv2.1 ≠ kv.1) →
      List.Pairwise (fun a b => a.1 ≠ b.1) pairs →
      pairs.foldl (fun acc kv => insertPair acc kv.1 kv.2) acc = acc ++ pairs := by
  induction pairs with
  | nil => intro acc _ _; simp
  | cons kv pairs ih =>
    intro acc hfresh hpw
    rw [List.pairwise_cons] at hpw
    have hnot : acc.any (fun kv2 => kv2.1 == kv.1) = false := by
      rw [List.any_eq_false]
      intro kv2 hkv2
      simp only [beq_iff_eq]
      exact hfresh kv (List.mem_cons_self kv pairs) kv2 hkv2
    simp only [List.foldl_cons]
    rw [show insertPair acc kv.1 kv.2 =
        (if acc.any (fun kv2 => kv2.1 == kv.1) then
          acc.map (fun kv2 => if kv2.1 == kv.1 then (kv2.1, kv.2) else kv2)
        else acc ++ [(kv.1, kv.2)]) from rfl]
    rw [if_neg (by rw [hnot]; exact Bool.false_ne_true)]
    rw [ih (acc ++ [(kv.1, kv.2)]) ?_ hpw.2]
    · simp
    · intro kv3 hkv3 kv2 hkv2
      rcases List.mem_append.mp hkv2 with hkv2 | hkv2
      · exact hfresh kv3 (List.mem_cons_of_mem kv hkv3) kv2 hkv2
      · rw [List.mem_singleton.mp hkv2]
        exact hpw.1 kv3 hkv3

/-- canonicalPairs gives string keys and pairwise-distinct stripped keys. -/
theorem canonicalPairs_strip (kvs : List (PyVal × PyVal)) :
    canonicalPairs kvs = true →
    (∀ kv ∈ kvs, ∃ s, kv.1 = PyVal.pystr s) ∧
      List.Pairwise (fun (a b : List Char × PyVal) => a.1 ≠ b.1) (kvs.map stripKey) := by
  induction kvs with
  | nil => intro _; exact ⟨fun kv hkv => absurd hkv (List.not_mem_nil kv), List.Pairwise.nil⟩
  | cons kv kvs ih =>
    intro h
    rw [show canonicalPairs (kv :: kvs) =
      ((match kv.1 with | .pystr _ => true | _ => false) &&
        !keyMem kv.1 kvs && canonical kv.2 && canonicalPairs kvs) from rfl] at h
    simp only [Bool.and_eq_true, Bool.not_eq_true'] at h
    obtain ⟨⟨⟨hstr, hmem⟩, _⟩, htail⟩ := h
    obtain ⟨s, hs⟩ : ∃ s, kv.1 = PyVal.pystr s := by
      cases hk : kv.1 <;> rw [hk] at hstr <;> first | exact ⟨_, rfl⟩ | exact Bool.noConfusion hstr
    obtain ⟨ihstr, ihpw⟩ := ih htail
    refine ⟨?_, ?_⟩
    · intro kv2 hkv2
      rcases List.mem_cons.mp hkv2 with rfl | hkv2
      · exact ⟨s, hs⟩
      · exact ihstr kv2 hkv2
    · rw [List.map_cons, List.pairwise_cons]
      refine ⟨?_, ihpw⟩
      intro b hb
      obtain ⟨kv2, hkv2, rfl⟩ := List.mem_map.mp hb
      obtain ⟨s2, hs2⟩ := ihstr kv2 hkv2
      have hsame := keyMem_false_forall kv.1 kvs hmem kv2 hkv2
      rw [hs, hs2] at hsame
      simp only [sameKey, beq_eq_false_iff_ne, ne_eq] at hsame
      simp only [stripKey, hs, hs2, ne_eq]
      exact hsame

/-- For canonical pairs, the dict json.loads builds from the parsed items is
exactly the original pair list. -/
theorem dictFromPairs_strip (kvs : List (PyVal × PyVal))
    (h : canonicalPairs kvs = true) : dictFromPairs (kvs.map stripKey) = kvs := by
  obtain ⟨hstr, hpw⟩ := canonicalPairs_strip kvs h
  rw [dictFromPairs,
    foldl_insertPair (kvs.map stripKey) []
      (fun kv _ kv2 hkv2 => absurd hkv2 (List.not_mem_nil kv2)) hpw,
    List.nil_append, List.map_map]
  have : ∀ kv ∈ kvs, ((fun kv2 => (PyVal.pystr kv2.1, kv2.2)) ∘ stripKey) kv = id kv := by
    intro kv hkv
    obtain ⟨s, hs⟩ := hstr kv hkv
    simp only [Function.comp_apply, stripKey, hs, id_eq]
    rw [← hs]
  rw [List.map_congr_left this, List.map_id]

/-! ### Round-trip helper lemmas: the emitter side -/

/-- Length of the newline-indent block. -/
theorem nlPad_length (lvl : Nat) : (nlPad lvl).length = 1 + 4 * lvl := by
  simp [nlPad]
  omega

/-- The printed integer starts with a minus sign or a digit and is
nonempty. -/
theorem intDec_cons (n : Int) :
    ∃ c r, intDec n = c :: r ∧ isWsChar c = false ∧ c ≠ ']' ∧ c ≠ '}' := by
  by_cases hn : n < 0
  · exact ⟨'-', natDec n.natAbs, by simp [intDec, hn], by decide, by decide, by decide⟩
  · obtain ⟨c, r, hcr, hd⟩ := natDec_cons n.toNat
    obtain ⟨_, _, _, _, _, _, _, hws, hrb, hcb, _⟩ := digit_not_special c hd
    exact ⟨c, r, by simp [intDec, hn, hcr], hws, hrb, hcb⟩

/-- Every emitted value starts with a character that is not whitespace and
not a closing bracket, so the parser's empty-container checks see past the
indentation to the first item. -/
theorem emit_head_ok (v : PyVal) (lvl : Nat) (out : List Char)
    (h : emitVal v lvl = some out) :
    ∃ c0 r0, out = c0 :: r0 ∧ isWsChar c0 = false ∧ c0 ≠ ']' ∧ c0 ≠ '}' := by
  cases v with
  | pynull =>
    simp only [emitVal, Option.some.injEq] at h
    exact ⟨'n', _, h.symm, by decide, by decide, by decide⟩
  | pybool b =>
    cases b <;> simp only [emitVal, Option.some.injEq] at h
    · exact ⟨'f', _, h.symm, by decide, by decide, by decide⟩
    · exact ⟨'t', _, h.symm, by decide, by decide, by decide⟩
  | pyint n =>
    simp only [emitVal, Option.some.injEq] at h
    obtain ⟨c, r, hcr, hws, hrb, hcb⟩ := intDec_cons n
    exact ⟨c, r, by rw [← h, hcr], hws, hrb, hcb⟩
  | pystr s =>
    simp only [emitVal, Option.some.injEq, encodeString] at h
    exact ⟨'"', _, h.symm, by decide, by decide, by decide⟩
  | pylist xs =>
    cases xs with
    | nil =>
      simp only [emitVal, Option.some.injEq] at h
      exact ⟨'[', _, h.symm, by decide, by decide, by decide⟩
    | cons x xs =>
      simp only [emitVal, Option.bind_eq_bind, Option.bind_eq_some, Option.pure_def,
        Option.some.injEq] at h
      obtain ⟨items, _, hout⟩ := h
      exact ⟨'[', _, hout.symm, by decide, by decide, by decide⟩
  | pytuple xs =>
    cases xs with
    | nil =>
      simp only [emitVal, Option.some.injEq] at h
      exact ⟨'[', _, h.symm, by decide, by decide, by decide⟩
    | cons x xs =>
      simp only [emitVal, Option.bind_eq_bind, Option.bind_eq_some, Option.pure_def,
        Option.some.injEq] at h
      obtain ⟨items, _, hout⟩ := h
      exact ⟨'[', _, hout.symm, by decide, by decide, by decide⟩
  | pydict kvs =>
    cases kvs with
    | nil =>
      simp only [emitVal, Option.some.injEq] at h
      exact ⟨'{', _, h.symm, by decide, by decide, by decide⟩
    | cons kv kvs =>
      simp only [emitVal, Option.bind_eq_bind, Option.bind_eq_some, Option.pure_def,
        Option.some.injEq] at h
      obtain ⟨items, _, hout⟩ := h
      exact ⟨'{', _, hout.symm, by decide, by decide, by decide⟩

/-- The fuel a value demands of the parser is at most the length of its
emitted text (items carry a plus-one slack), so the input-length fuel loads
supplies is always enough. -/
theorem emit_len_all :
    (∀ (v : PyVal) (lvl : Nat), ∀ out, emitVal v lvl = some out → pvFuel v ≤ out.length) ∧
    (∀ (kvs : List (PyVal × PyVal)) (lvl : Nat), ∀ out,
      emitPairs kvs lvl = some out → pvFuelPairs kvs ≤ out.length + 1) ∧
    (∀ (xs : List PyVal) (lvl : Nat), ∀ out,
      emitItems xs lvl = some out → pvFuelList xs ≤ out.length + 1) := by
  apply emitVal.mutual_induct
    (fun v lvl => ∀ out, emitVal v lvl = some out → pvFuel v ≤ out.length)
    (fun kvs lvl => ∀ out, emitPairs kvs lvl = some out → pvFuelPairs kvs ≤ out.length + 1)
    (fun xs lvl => ∀ out, emitItems xs lvl = some out → pvFuelList xs ≤ out.length + 1)
  · intro lvl out h
    simp only [emitVal, Option.some.injEq] at h
    rw [← h]; decide
  · intro lvl out h
    simp only [emitVal, Option.some.injEq] at h
    rw [← h]; decide
  · intro lvl out h
    simp only [emitVal, Option.some.injEq] at h
    rw [← h]; decide
  · intro n lvl out h
    simp only [emitVal, Option.some.injEq] at h
    rw [← h]
    obtain ⟨c, r, hcr, _, _, _⟩ := intDec_cons n
    simp [pvFuel, hcr]
  · intro s lvl out h
    simp only [emitVal, Option.some.injEq] at h
    rw [← h]
    simp [pvFuel, encodeString]
  · intro lvl out h
    simp only [emitVal, Option.some.injEq] at h
    rw [← h]; decide
  · intro x xs lvl ih out h
    simp only [emitVal, Option.bind_eq_bind, Option.bind_eq_some, Option.pure_def,
      Option.some.injEq] at h
    obtain ⟨items, hi, hout⟩ := h
    have hlen := ih items hi
    rw [← hout]
    simp only [pvFuel, List.length_cons, List.length_append, nlPad_length]
    omega
  · intro lvl out h
    simp only [emitVal, Option.some.injEq] at h
    rw [← h]; decide
  · intro x xs lvl ih out h
    simp only [emitVal, Option.bind_eq_bind, Option.bind_eq_some, Option.pure_def,
      Option.some.injEq] at h
    obtain ⟨items, hi, hout⟩ := h
    have hlen := ih items hi
    rw [← hout]
    simp only [pvFuel, List.length_cons, List.length_append, nlPad_length]
    omega
  · intro lvl out h
    simp only [emitVal, Option.some.injEq] at h
    rw [← h]; decide
  · intro kv kvs lvl ih out h
    simp only [emitVal, Option.bind_eq_bind, Option.bind_eq_some, Option.pure_def,
      Option.some.injEq] at h
    obtain ⟨items, hi, hout⟩ := h
    have hlen := ih items hi
    rw [← hout]
    simp only [pvFuel, List.length_cons, List.length_append, nlPad_length]
    omega
  · intro lvl out h
    simp only [pvFuelList]
    omega
  · intro x lvl ih out h
    simp only [emitItems] at h
    have := ih out h
    simp only [pvFuelList]
    omega
  · intro x y xs lvl ih1 ih3 out h
    simp only [emitItems, Option.bind_eq_bind, Option.bind_eq_some, Option.pure_def,
      Option.some.injEq] at h
    obtain ⟨hd, hhd, tl, htl, hout⟩ := h
    have l1 := ih1 hd hhd
    have l2 := ih3 tl htl
    rw [← hout]
    simp only [pvFuelList] at l2
    simp only [pvFuelList, List.length_append, List.length_cons, nlPad_length]
    omega
  · intro lvl out h
    simp only [pvFuelPairs]
    omega
  · intro k v lvl ih out h
    simp only [emitPairs, Option.bind_eq_bind, Option.bind_eq_some, Option.pure_def,
      Option.some.injEq] at h
    obtain ⟨ks, hks, vs, hvs, hout⟩ := h
    have l1 := ih vs hvs
    rw [← hout]
    simp only [pvFuelPairs, pvFuelList, List.length_append, List.length_cons,
      encodeString]
    omega
  · intro k v kv kvs lvl ih1 ih2 out h
    simp only [emitPairs, Option.bind_eq_bind, Option.bind_eq_some, Option.pure_def,
      Option.some.injEq] at h
    obtain ⟨ks, hks, vs, hvs, tl, htl, hout⟩ := h
    have l1 := ih1 vs hvs
    have l2 := ih2 tl htl
    rw [← hout]
    simp only [pvFuelPairs] at l2
    simp only [pvFuelPairs, List.length_append, List.length_cons, nlPad_length,
      encodeString]
    omega

/-- Serialization always succeeds on canonical values: json.dump raises no
TypeError for them. -/
theorem emit_some_all :
    (∀ (v : PyVal) (lvl : Nat), canonical v = true → ∃ out, emitVal v lvl = some out) ∧
    (∀ (kvs : List (PyVal × PyVal)) (lvl : Nat), canonicalPairs kvs = true →
      ∃ out, emitPairs kvs lvl = some out) ∧
    (∀ (xs : List PyVal) (lvl : Nat), canonicalList xs = true →
      ∃ out, emitItems xs lvl = some out) := by
  apply emitVal.mutual_induct
    (fun v lvl => canonical v = true → ∃ out, emitVal v lvl = some out)
    (fun kvs lvl => canonicalPairs kvs = true → ∃ out, emitPairs kvs lvl = some out)
    (fun xs lvl => canonicalList xs = true → ∃ out, emitItems xs lvl = some out)
  · exact fun _ _ => ⟨_, rfl⟩
  · exact fun _ _ => ⟨_, rfl⟩
  · exact fun _ _ => ⟨_, rfl⟩
  · exact fun _ _ _ => ⟨_, rfl⟩
  · exact fun _ _ _ => ⟨_, rfl⟩
  · exact fun _ _ => ⟨_, rfl⟩
  · intro x xs lvl ih hc
    rw [show canonical (PyVal.pylist (x :: xs)) = canonicalList (x :: xs) from rfl] at hc
    obtain ⟨items, hi⟩ := ih hc
    refine ⟨'[' :: (nlPad (lvl + 1) ++ (items ++ (nlPad lvl ++ [']']))), ?_⟩
    simp [emitVal, hi]
  · exact fun _ _ => ⟨_, rfl⟩
  · intro x xs lvl _ hc
    exact absurd hc (by simp [canonical])
  · exact fun _ _ => ⟨_, rfl⟩
  · intro kv kvs lvl ih hc
    rw [show canonical (PyVal.pydict (kv :: kvs)) = canonicalPairs (kv :: kvs) from rfl] at hc
    obtain ⟨items, hi⟩ := ih hc
    refine ⟨'{' :: (nlPad (lvl + 1) ++ (items ++ (nlPad lvl ++ ['}']))), ?_⟩
    simp [emitVal, hi]
  · exact fun _ _ => ⟨_, rfl⟩
  · intro x lvl ih hc
    rw [show canonicalList [x] = (canonical x && canonicalList []) from rfl] at hc
    simp only [Bool.and_eq_true] at hc
    obtain ⟨out, ho⟩ := ih hc.1
    exact ⟨out, by simp [emitItems, ho]⟩
  · intro x y xs lvl ih1 ih3 hc
    rw [show canonicalList (x :: y :: xs) = (canonical x && canonicalList (y :: xs))
      from rfl] at hc
    simp only [Bool.and_eq_true] at hc
    obtain ⟨hd, hhd⟩ := ih1 hc.1
    obtain ⟨tl, htl⟩ := ih3 hc.2
    refine ⟨hd ++ ',' :: (nlPad lvl ++ tl), ?_⟩
    simp [emitItems, hhd, htl]
  · exact fun _ _ => ⟨_, rfl⟩
  · intro k v lvl ih hc
    rw [show canonicalPairs [(k, v)] =
      ((match (k, v).1 with | PyVal.pystr _ => true | _ => false) &&
        !keyMem (k, v).1 [] && canonical (k, v).2 && canonicalPairs []) from rfl] at hc
    simp only [Bool.and_eq_true] at hc
    obtain ⟨⟨⟨hstr, _⟩, hcv⟩, _⟩ := hc
    obtain ⟨s, hs⟩ : ∃ s, k = PyVal.pystr s := by
      cases hk : k <;> rw [hk] at hstr <;> first | exact ⟨_, rfl⟩ | exact Bool.noConfusion hstr
    obtain ⟨vs, hvs⟩ := ih hcv
    refine ⟨encodeString s ++ ':' :: ' ' :: vs, ?_⟩
    simp [emitPairs, hs, dumpKey, hvs]
  · intro k v kv kvs lvl ih1 ih2 hc
    rw [show canonicalPairs ((k, v) :: kv :: kvs) =
      ((match (k, v).1 with | PyVal.pystr _ => true | _ => false) &&
        !keyMem (k, v).1 (kv :: kvs) && canonical (k, v).2 &&
          canonicalPairs (kv :: kvs)) from rfl] at hc
    simp only [Bool.and_eq_true] at hc
    obtain ⟨⟨⟨hstr, _⟩, hcv⟩, htail⟩ := hc
    obtain ⟨s, hs⟩ : ∃ s, k = PyVal.pystr s := by
      cases hk : k <;> rw [hk] at hstr <;> first | exact ⟨_, rfl⟩ | exact Bool.noConfusion hstr
    obtain ⟨vs, hvs⟩ := ih1 hcv
    obtain ⟨tl, htl⟩ := ih2 htail
    refine ⟨encodeString s ++ ':' :: ' ' :: (vs ++ ',' :: (nlPad lvl ++ tl)), ?_⟩
    simp [emitPairs, hs, dumpKey, hvs, htl]

/-! ### Round-trip helper lemmas: parser dispatch -/

/-- Every value needs at least one unit of parser fuel. -/
theorem pvFuel_pos (v : PyVal) : 1 ≤ pvFuel v := by
  cases v <;> simp only [pvFuel] <;> omega

/-- A nonempty item chain needs fuel. -/
theorem pvFuelList_pos (xs : List PyVal) (h : xs ≠ []) : 1 ≤ pvFuelList xs := by
  cases xs with
  | nil => exact absurd rfl h
  | cons x xs => simp only [pvFuelList]; omega

/-- A nonempty pair chain needs fuel. -/
theorem pvFuelPairs_pos (kvs : List (PyVal × PyVal)) (h : kvs ≠ []) :
    1 ≤ pvFuelPairs kvs := by
  cases kvs with
  | nil => exact absurd rfl h
  | cons kv kvs => simp only [pvFuelPairs]; omega

/-- The item chain of a nonempty array starts like its first value. -/
theorem emitItems_head (x : PyVal) (xs : List PyVal) (lvl : Nat) (out : List Char)
    (h : emitItems (x :: xs) lvl = some out) :
    ∃ c0 r0, out = c0 :: r0 ∧ isWsChar c0 = false ∧ c0 ≠ ']' ∧ c0 ≠ '}' := by
  cases xs with
  | nil =>
    simp only [emitItems] at h
    exact emit_head_ok x lvl out h
  | cons y ys =>
    simp only [emitItems, Option.bind_eq_bind, Option.bind_eq_some, Option.pure_def,
      Option.some.injEq] at h
    obtain ⟨hd, hhd, tl, _, hout⟩ := h
    obtain ⟨c0, r0, hcr, hws, hrb, hcb⟩ := emit_head_ok x lvl hd hhd
    exact ⟨c0, r0 ++ ',' :: (nlPad lvl ++ tl), by rw [← hout, hcr]; simp, hws, hrb, hcb⟩

/-- The pair chain of a nonempty object starts with the quoted key. -/
theorem emitPairs_head (kv : PyVal × PyVal) (kvs : List (PyVal × PyVal)) (lvl : Nat)
    (out : List Char) (h : emitPairs (kv :: kvs) lvl = some out) :
    ∃ r0, out = '"' :: r0 := by
  obtain ⟨k, v⟩ := kv
  cases kvs with
  | nil =>
    simp only [emitPairs, Option.bind_eq_bind, Option.bind_eq_some, Option.pure_def,
      Option.some.injEq] at h
    obtain ⟨ks, _, vs, _, hout⟩ := h
    exact ⟨ks.flatMap escapeChar ++ '"' :: ':' :: ' ' :: vs,
      by rw [← hout]; simp [encodeString]⟩
  | cons kv2 kvs2 =>
    simp only [emitPairs, Option.bind_eq_bind, Option.bind_eq_some, Option.pure_def,
      Option.some.injEq] at h
    obtain ⟨ks, _, vs, _, tl, _, hout⟩ := h
    exact ⟨ks.flatMap escapeChar ++ '"' :: ':' :: ' ' :: (vs ++ ',' :: (nlPad lvl ++ tl)),
      by rw [← hout]; simp [encodeString]⟩

/-- The parseVal dispatch once the whitespace-skipped input is known. -/
theorem parseVal_eq (n : Nat) (s : List Char) (c : Char) (r : List Char)
    (h : skipWs s = c :: r) :
    parseVal (n + 1) s =
      (if c = '"' then
        (parseStrAux (r.length + 1) r []).map (fun p => (PyVal.pystr p.1, p.2))
      else if c = '[' then
        if (skipWs r).head? = some ']' then some (.pylist [], (skipWs r).tail)
        else (parseArrItems n r).map (fun p => (PyVal.pylist p.1, p.2))
      else if c = '{' then
        if (skipWs r).head? = some '}' then some (.pydict [], (skipWs r).tail)
        else (parseObjItems n r).map (fun p => (PyVal.pydict (dictFromPairs p.1), p.2))
      else if c = 'n' then (stripLit "ull".toList r).map (fun r2 => (PyVal.pynull, r2))
      else if c = 't' then (stripLit "rue".toList r).map (fun r2 => (PyVal.pybool true, r2))
      else if c = 'f' then (stripLit "alse".toList r).map (fun r2 => (PyVal.pybool false, r2))
      else if c = '-' then (parseUNum r).map (fun p => (PyVal.pyint (-(p.1 : Int)), p.2))
      else if isDigitChar c then
        (parseUNum (c :: r)).map (fun p => (PyVal.pyint (p.1 : Int), p.2))
      else none) := by
  simp only [parseVal, h]

/-- The parseArrItems step. -/
theorem parseArrItems_eq (n : Nat) (s : List Char) :
    parseArrItems (n + 1) s =
      (do
        let v ← parseVal n s
        match skipWs v.2 with
        | c :: r2 =>
          if c = ',' then (parseArrItems n r2).map (fun p => (v.1 :: p.1, p.2))
          else if c = ']' then some ([v.1], r2)
          else none
        | [] => none) := rfl

/-- The parseObjItems dispatch once the whitespace-skipped input is known. -/
theorem parseObjItems_eq (n : Nat) (s : List Char) (c : Char) (r : List Char)
    (h : skipWs s = c :: r) :
    parseObjItems (n + 1) s =
      (if c = '"' then do
        let k ← parseStrAux (r.length + 1) r []
        match skipWs k.2 with
        | c2 :: r2 =>
          if c2 = ':' then do
            let v ← parseVal n r2
            match skipWs v.2 with
            | c3 :: r4 =>
              if c3 = ',' then
                (parseObjItems n r4).map (fun p => ((k.1, v.1) :: p.1, p.2))
              else if c3 = '}' then some ([(k.1, v.1)], r4)
              else none
            | [] => none
          else none
        | [] => none
      else none) := by
  simp only [parseObjItems, h]

/-! ### The round trip -/

theorem parse_emit_all (fuel : Nat) :
    (∀ (v : PyVal) (lvl : Nat) (out w rest : List Char),
      canonical v = true → emitVal v lvl = some out → pvFuel v ≤ fuel →
      w.all isWsChar = true → noLeadDigit rest = true →
      parseVal fuel (w ++ out ++ rest) = some (v, rest)) ∧
    (∀ (xs : List PyVal) (lvl : Nat) (out w w2 rest : List Char),
      canonicalList xs = true → emitItems xs lvl = some out → pvFuelList xs ≤ fuel →
      xs ≠ [] → w.all isWsChar = true → w2.all isWsChar = true →
      parseArrItems fuel (w ++ out ++ w2 ++ ']' :: rest) = some (xs, rest)) ∧
    (∀ (kvs : List (PyVal × PyVal)) (lvl : Nat) (out w w2 rest : List Char),
      canonicalPairs kvs = true → emitPairs kvs lvl = some out → pvFuelPairs kvs ≤ fuel →
      kvs ≠ [] → w.all isWsChar = true → w2.all isWsChar = true →
      parseObjItems fuel (w ++ out ++ w2 ++ '}' :: rest) = some (kvs.map stripKey, rest)) := by
  induction fuel using Nat.strong_induction_on with
  | _ fuel IH =>
  obtain _ | n := fuel
  · refine ⟨fun v lvl out w rest hc he hf hw hr =>
      absurd hf (by have := pvFuel_pos v; omega),
      fun xs lvl out w w2 rest hc he hf hne hw hw2 =>
        absurd hf (by have := pvFuelList_pos xs hne; omega),
      fun kvs lvl out w w2 rest hc he hf hne hw hw2 =>
        absurd hf (by have := pvFuelPairs_pos kvs hne; omega)⟩
  refine ⟨?_, ?_, ?_⟩
  · -- parseVal reads back every canonical emitted value
    intro v lvl out w rest hc he hf hw hr
    cases v with
    | pynull =>
      simp only [emitVal, Option.some.injEq] at he
      rw [← he]
      have hin : w ++ "null".toList ++ rest = w ++ ('n' :: (['u', 'l', 'l'] ++ rest)) := by
        rw [show "null".toList = 'n' :: ['u', 'l', 'l'] from rfl]
        simp
      rw [hin, parseVal_eq n _ 'n' (['u', 'l', 'l'] ++ rest)
        (by rw [skipWs_all w _ hw, skipWs_cons_of_not _ _ (by decide)]),
        if_neg (by decide), if_neg (by decide), if_neg (by decide), if_pos rfl,
        show "ull".toList = ['u', 'l', 'l'] from rfl, stripLit_self]
      rfl
    | pybool b =>
      cases b
      · simp only [emitVal, Option.some.injEq] at he
        rw [← he]
        have hin : w ++ "false".toList ++ rest =
            w ++ ('f' :: (['a', 'l', 's', 'e'] ++ rest)) := by
          rw [show "false".toList = 'f' :: ['a', 'l', 's', 'e'] from rfl]
          simp
        rw [hin, parseVal_eq n _ 'f' (['a', 'l', 's', 'e'] ++ rest)
          (by rw [skipWs_all w _ hw, skipWs_cons_of_not _ _ (by decide)]),
          if_neg (by decide), if_neg (by decide), if_neg (by decide), if_neg (by decide),
          if_neg (by decide), if_pos rfl,
          show "alse".toList = ['a', 'l', 's', 'e'] from rfl, stripLit_self]
        rfl
      · simp only [emitVal, Option.some.injEq] at he
        rw [← he]
        have hin : w ++ "true".toList ++ rest =
            w ++ ('t' :: (['r', 'u', 'e'] ++ rest)) := by
          rw [show "true".toList = 't' :: ['r', 'u', 'e'] from rfl]
          simp
        rw [hin, parseVal_eq n _ 't' (['r', 'u', 'e'] ++ rest)
          (by rw [skipWs_all w _ hw, skipWs_cons_of_not _ _ (by decide)]),
          if_neg (by decide), if_neg (by decide), if_neg (by decide), if_neg (by decide),
          if_pos rfl, show "rue".toList = ['r', 'u', 'e'] from rfl, stripLit_self]
        rfl
    | pyint m =>
      simp only [emitVal, Option.some.injEq] at he
      rw [← he]
      by_cases hm : m < 0
      · have hout : intDec m = '-' :: natDec m.natAbs := by simp [intDec, hm]
        have hin : w ++ intDec m ++ rest = w ++ ('-' :: (natDec m.natAbs ++ rest)) := by
          rw [hout]
          simp
        rw [hin, parseVal_eq n _ '-' (natDec m.natAbs ++ rest)
          (by rw [skipWs_all w _ hw, skipWs_cons_of_not _ _ (by decide)]),
          if_neg (by decide), if_neg (by decide), if_neg (by decide), if_neg (by decide),
          if_neg (by decide), if_neg (by decide), if_pos rfl,
          parseUNum_natDec m.natAbs rest hr]
        have hmv : (-(m.natAbs : Int)) = m := by omega
        simp only [Option.map_some']
        rw [hmv]
      · have hout : intDec m = natDec m.toNat := by simp [intDec, hm]
        obtain ⟨c, r0, hcr, hd⟩ := natDec_cons m.toNat
        obtain ⟨d1, d2, d3, d4, d5, d6, d7, hws, _, _, _⟩ := digit_not_special c hd
        have hin : w ++ intDec m ++ rest = w ++ (c :: (r0 ++ rest)) := by
          rw [hout, hcr]
          simp
        rw [hin, parseVal_eq n _ c (r0 ++ rest)
          (by rw [skipWs_all w _ hw, skipWs_cons_of_not _ _ hws]),
          if_neg d1, if_neg d2, if_neg d3, if_neg d4, if_neg d5, if_neg d6, if_neg d7,
          if_pos hd,
          show c :: (r0 ++ rest) = natDec m.toNat ++ rest from by rw [hcr]; simp,
          parseUNum_natDec m.toNat rest hr]
        have hmv : ((m.toNat : Int)) = m := by omega
        simp only [Option.map_some']
        rw [hmv]
    | pystr s =>
      simp only [emitVal, Option.some.injEq] at he
      rw [← he]
      have hin : w ++ encodeString s ++ rest =
          w ++ ('"' :: (s.flatMap escapeChar ++ '"' :: rest)) := by
        simp [encodeString]
      rw [hin, parseVal_eq n _ '"' (s.flatMap escapeChar ++ '"' :: rest)
        (by rw [skipWs_all w _ hw, skipWs_cons_of_not _ _ (by decide)]), if_pos rfl,
        parseStrAux_escaped s _ [] rest (by
          have := length_le_flatMap_escape s
          simp only [List.length_append, List.length_cons]
          omega)]
      simp
    | pylist xs =>
      cases xs with
      | nil =>
        simp only [emitVal, Option.some.injEq] at he
        rw [← he]
        have hin : w ++ "[]".toList ++ rest = w ++ ('[' :: (']' :: rest)) := by
          rw [show "[]".toList = '[' :: [']'] from rfl]
          simp
        rw [hin, parseVal_eq n _ '[' (']' :: rest)
          (by rw [skipWs_all w _ hw, skipWs_cons_of_not _ _ (by decide)]),
          if_neg (by decide), if_pos rfl, skipWs_cons_of_not _ _ (by decide)]
        rfl
      | cons x xs2 =>
        rw [show canonical (PyVal.pylist (x :: xs2)) = canonicalList (x :: xs2) from rfl] at hc
        simp only [emitVal, Option.bind_eq_bind, Option.bind_eq_some, Option.pure_def,
          Option.some.injEq] at he
        obtain ⟨items, hitems, hout⟩ := he
        rw [← hout]
        have hin : w ++ ('[' :: (nlPad (lvl + 1) ++ items ++ nlPad lvl ++ [']'])) ++ rest =
            w ++ ('[' :: (nlPad (lvl + 1) ++ (items ++ (nlPad lvl ++ (']' :: rest))))) := by
          simp
        rw [hin, parseVal_eq n _ '[' _
          (by rw [skipWs_all w _ hw, skipWs_cons_of_not _ _ (by decide)]),
          if_neg (by decide), if_pos rfl]
        obtain ⟨c0, r0, hcr0, hws0, hrb0, _⟩ := emitItems_head x xs2 (lvl + 1) items hitems
        have hskipX : skipWs (nlPad (lvl + 1) ++ (items ++ (nlPad lvl ++ (']' :: rest)))) =
            c0 :: (r0 ++ (nlPad lvl ++ (']' :: rest))) := by
          rw [skipWs_all _ _ (allWs_nlPad (lvl + 1)), hcr0, List.cons_append,
            skipWs_cons_of_not _ _ hws0]
        rw [if_neg (by rw [hskipX]; simp only [List.head?_cons, Option.some.injEq]; exact hrb0)]
        rw [show nlPad (lvl + 1) ++ (items ++ (nlPad lvl ++ (']' :: rest))) =
          nlPad (lvl + 1) ++ items ++ nlPad lvl ++ ']' :: rest from by simp]
        rw [(IH n (by omega)).2.1 (x :: xs2) (lvl + 1) items (nlPad (lvl + 1)) (nlPad lvl)
          rest hc hitems (by simp only [pvFuel] at hf; omega) (by simp)
          (allWs_nlPad (lvl + 1)) (allWs_nlPad lvl)]
        rfl
    | pytuple xs =>
      rw [show canonical (PyVal.pytuple xs) = false from rfl] at hc
      exact Bool.noConfusion hc
    | pydict kvs =>
      cases kvs with
      | nil =>
        simp only [emitVal, Option.some.injEq] at he
        rw [← he]
        have hin : w ++ "{}".toList ++ rest = w ++ ('{' :: ('}' :: rest)) := by
          rw [show "{}".toList = '{' :: ['}'] from rfl]
          simp
        rw [hin, parseVal_eq n _ '{' ('}' :: rest)
          (by rw [skipWs_all w _ hw, skipWs_cons_of_not _ _ (by decide)]),
          if_neg (by decide), if_neg (by decide), if_pos rfl,
          skipWs_cons_of_not _ _ (by decide)]
        rfl
      | cons kv kvs2 =>
        rw [show canonical (PyVal.pydict (kv :: kvs2)) = canonicalPairs (kv :: kvs2)
          from rfl] at hc
        simp only [emitVal, Option.bind_eq_bind, Option.bind_eq_some, Option.pure_def,
          Option.some.injEq] at he
        obtain ⟨items, hitems, hout⟩ := he
        rw [← hout]
        have hin : w ++ ('{' :: (nlPad (lvl + 1) ++ items ++ nlPad lvl ++ ['}'])) ++ rest =
            w ++ ('{' :: (nlPad (lvl + 1) ++ (items ++ (nlPad lvl ++ ('}' :: rest))))) := by
          simp
        rw [hin, parseVal_eq n _ '{' _
          (by rw [skipWs_all w _ hw, skipWs_cons_of_not _ _ (by decide)]),
          if_neg (by decide), if_neg (by decide), if_pos rfl]
        obtain ⟨r0, hcr0⟩ := emitPairs_head kv kvs2 (lvl + 1) items hitems
        have hskipX : skipWs (nlPad (lvl + 1) ++ (items ++ (nlPad lvl ++ ('}' :: rest)))) =
            '"' :: (r0 ++ (nlPad lvl ++ ('}' :: rest))) := by
          rw [skipWs_all _ _ (allWs_nlPad (lvl + 1)), hcr0, List.cons_append,
            skipWs_cons_of_not _ _ (by decide)]
        rw [if_neg (by rw [hskipX]; simp only [List.head?_cons, Option.some.injEq]; decide)]
        rw [show nlPad (lvl + 1) ++ (items ++ (nlPad lvl ++ ('}' :: rest))) =
          nlPad (lvl + 1) ++ items ++ nlPad lvl ++ '}' :: rest from by simp]
        rw [(IH n (by omega)).2.2 (kv :: kvs2) (lvl + 1) items (nlPad (lvl + 1)) (nlPad lvl)
          rest hc hitems (by simp only [pvFuel] at hf; omega) (by simp)
          (allWs_nlPad (lvl + 1)) (allWs_nlPad lvl)]
        simp only [Option.map_some']
        rw [dictFromPairs_strip _ hc]
  · -- array item chains
    intro xs lvl out w w2 rest hc he hf hne hw hw2
    cases xs with
    | nil => exact absurd rfl hne
    | cons x xs2 =>
      rw [show canonicalList (x :: xs2) = (canonical x && canonicalList xs2) from rfl] at hc
      simp only [Bool.and_eq_true] at hc
      cases xs2 with
      | nil =>
        simp only [emitItems] at he
        rw [parseArrItems_eq, show w ++ out ++ w2 ++ ']' :: rest =
          w ++ out ++ (w2 ++ ']' :: rest) from by simp,
          (IH n (by omega)).1 x lvl out w (w2 ++ ']' :: rest) hc.1 he
            (by simp only [pvFuelList] at hf; omega) hw
            (noLeadDigit_ws w2 ']' rest hw2 (by decide))]
        simp only [Option.bind_eq_bind, Option.some_bind]
        rw [skipWs_all w2 _ hw2, skipWs_cons_of_not _ _ (by decide)]
        rfl
      | cons y ys =>
        simp only [emitItems, Option.bind_eq_bind, Option.bind_eq_some, Option.pure_def,
          Option.some.injEq] at he
        obtain ⟨hd, hhd, tl, htl, hout⟩ := he
        rw [← hout]
        rw [show w ++ (hd ++ ',' :: (nlPad lvl ++ tl)) ++ w2 ++ ']' :: rest =
          w ++ hd ++ (',' :: (nlPad lvl ++ tl ++ w2 ++ ']' :: rest)) from by simp]
        rw [parseArrItems_eq,
          (IH n (by omega)).1 x lvl hd w (',' :: (nlPad lvl ++ tl ++ w2 ++ ']' :: rest))
            hc.1 hhd (by simp only [pvFuelList] at hf; omega) hw (by rfl)]
        simp only [Option.bind_eq_bind, Option.some_bind]
        rw [skipWs_cons_of_not _ _ (by decide)]
        simp only []
        rw [if_pos trivial]
        rw [(IH n (by omega)).2.1 (y :: ys) lvl tl (nlPad lvl) w2 rest hc.2 htl
          (by simp only [pvFuelList] at hf ⊢; omega) (by simp) (allWs_nlPad lvl) hw2]
        rfl
  · -- object item chains
    intro kvs lvl out w w2 rest hc he hf hne hw hw2
    cases kvs with
    | nil => exact absurd rfl hne
    | cons kv kvs2 =>
      obtain ⟨k, v⟩ := kv
      rw [show canonicalPairs ((k, v) :: kvs2) =
        ((match (k, v).1 with | PyVal.pystr _ => true | _ => false) &&
          !keyMem (k, v).1 kvs2 && canonical (k, v).2 && canonicalPairs kvs2) from rfl] at hc
      simp only [Bool.and_eq_true] at hc
      obtain ⟨⟨⟨hstr, hkm⟩, hcv⟩, htail⟩ := hc
      obtain ⟨s, hs⟩ : ∃ s, k = PyVal.pystr s := by
        cases hk : k <;> rw [hk] at hstr <;> first | exact ⟨_, rfl⟩ | exact Bool.noConfusion hstr
      cases kvs2 with
      | nil =>
        simp only [emitPairs, Option.bind_eq_bind, Option.bind_eq_some, Option.pure_def,
          Option.some.injEq] at he
        obtain ⟨ks, hks, vs, hvs, hout⟩ := he
        have hkss : ks = s := by
          rw [hs] at hks
          simp only [dumpKey, Option.some.injEq] at hks
          exact hks.symm
        rw [← hout]
        rw [show w ++ (encodeString ks ++ ':' :: ' ' :: vs) ++ w2 ++ '}' :: rest =
          w ++ ('"' :: (ks.flatMap escapeChar ++
            '"' :: (':' :: (' ' :: (vs ++ (w2 ++ ('}' :: rest))))))) from by
          simp [encodeString]]
        rw [parseObjItems_eq n _ '"' _
          (by rw [skipWs_all w _ hw, skipWs_cons_of_not _ _ (by decide)]), if_pos rfl,
          parseStrAux_escaped ks _ [] _ (by
            have := length_le_flatMap_escape ks
            simp only [List.length_append, List.length_cons]
            omega)]
        simp only [Option.bind_eq_bind, Option.some_bind]
        rw [skipWs_cons_of_not _ _ (by decide)]
        simp only []
        rw [if_pos trivial]
        rw [show (' ' :: (vs ++ (w2 ++ ('}' :: rest)))) =
          [' '] ++ vs ++ (w2 ++ ('}' :: rest)) from by simp]
        rw [(IH n (by omega)).1 v lvl vs [' '] (w2 ++ ('}' :: rest)) hcv hvs
          (by simp only [pvFuelPairs] at hf; omega) (by decide)
          (noLeadDigit_ws w2 '}' rest hw2 (by decide))]
        simp only [Option.bind_eq_bind, Option.some_bind]
        rw [skipWs_all w2 _ hw2, skipWs_cons_of_not _ _ (by decide)]
        simp only [reduceIte]
        rw [hkss, hs]
        simp [stripKey]
      | cons kv2 kvs22 =>
        simp only [emitPairs, Option.bind_eq_bind, Option.bind_eq_some, Option.pure_def,
          Option.some.injEq] at he
        obtain ⟨ks, hks, vs, hvs, tl, htl, hout⟩ := he
        have hkss : ks = s := by
          rw [hs] at hks
          simp only [dumpKey, Option.some.injEq] at hks
          exact hks.symm
        rw [← hout]
        rw [show w ++ (encodeString ks ++ ':' :: ' ' :: (vs ++ ',' :: (nlPad lvl ++ tl))) ++
            w2 ++ '}' :: rest =
          w ++ ('"' :: (ks.flatMap escapeChar ++
            '"' :: (':' :: (' ' :: (vs ++
              (',' :: (nlPad lvl ++ tl ++ w2 ++ '}' :: rest))))))) from by
          simp [encodeString]]
        rw [parseObjItems_eq n _ '"' _
          (by rw [skipWs_all w _ hw, skipWs_cons_of_not _ _ (by decide)]), if_pos rfl,
          parseStrAux_escaped ks _ [] _ (by
            have := length_le_flatMap_escape ks
            simp only [List.length_append, List.length_cons]
            omega)]
        simp only [Option.bind_eq_bind, Option.some_bind]
        rw [skipWs_cons_of_not _ _ (by decide)]
        simp only []
        rw [if_pos trivial]
        rw [show (' ' :: (vs ++ (',' :: (nlPad lvl ++ tl ++ w2 ++ '}' :: rest)))) =
          [' '] ++ vs ++ (',' :: (nlPad lvl ++ tl ++ w2 ++ '}' :: rest)) from by simp]
        rw [(IH n (by omega)).1 v lvl vs [' ']
          (',' :: (nlPad lvl ++ tl ++ w2 ++ '}' :: rest)) hcv hvs
          (by simp only [pvFuelPairs] at hf; omega) (by decide) (by rfl)]
        simp only [Option.bind_eq_bind, Option.some_bind]
        rw [skipWs_cons_of_not _ _ (by decide)]
        simp only []
        rw [if_pos trivial]
        rw [(IH n (by omega)).2.2 (kv2 :: kvs22) lvl tl (nlPad lvl) w2 rest htail htl
          (by simp only [pvFuelPairs] at hf ⊢; omega) (by simp) (allWs_nlPad lvl) hw2]
        simp only [Option.map_some']
        rw [hkss, hs]
        simp [stripKey]

/-- json.loads inverts json.dumps on canonical values. -/
theorem loads_dumps (v : PyVal) (out : List Char) (hc : canonical v = true)
    (he : dumps v = some out) : loads out = some v := by
  simp only [dumps] at he
  have hlen := emit_len_all.1 v 0 out he
  have hp := (parse_emit_all (out.length + 1)).1 v 0 out [] [] hc he (by omega)
    (by rfl) (by rfl)
  simp only [List.nil_append, List.append_nil] at hp
  simp [loads, hp, skipWs]

/-- C3 amended: the write-then-load round trip is the identity on every
canonical value - one in the image of json.loads, that is with string-keyed
dicts (Python dict keys are distinct), lists rather than tuples, and no
floats: write_json succeeds and load_json returns exactly the value
written.  The int-keyed counterexample is precisely what the restriction to
string keys excludes. -/
theorem C3_write_load_roundtrip (fs : FS) (p tmp : String) (data : PyVal)
    (hfresh : tmp ≠ p) (hcanon : canonical data = true) :
    (write_json fs p tmp data none []).2 = .ok () ∧
    load_json (write_json fs p tmp data none []).1 p = .ok data := by
  obtain ⟨out, hout⟩ := emit_some_all.1 data 0 hcanon
  have hdumps : dumps data = some out := hout
  have hq : (p = tmp) = False := eq_false (fun h => hfresh h.symm)
  constructor
  · simp [write_json, hdumps]
  · have hfile : (write_json fs p tmp data none []).1.files p = some out := by
      simp [write_json, hdumps, FS.put, hq]
    simp [load_json, hfile, loads_dumps data out hcanon hdumps]

/-- Witness for the amended C3 at a concrete nested canonical value. -/
theorem C3_write_load_roundtrip_witness :
    (write_json ⟨fun _ => none⟩ "c.json" "tmp2"
        (.pydict [(.pystr ['a'], .pylist [.pyint 1, .pynull])]) none []).2 = .ok () ∧
    load_json (write_json ⟨fun _ => none⟩ "c.json" "tmp2"
        (.pydict [(.pystr ['a'], .pylist [.pyint 1, .pynull])]) none []).1 "c.json" =
      .ok (.pydict [(.pystr ['a'], .pylist [.pyint 1, .pynull])]) :=
  C3_write_load_roundtrip ⟨fun _ => none⟩ "c.json" "tmp2"
    (.pydict [(.pystr ['a'], .pylist [.pyint 1, .pynull])]) (by decide) (by decide)
